import Mathlib

/-!
Shallow embedding of the query subsystem of the log-chaos-visualizer
repository: the query evaluator and its field extraction
(src/app/core/utils/query-evaluator.ts, first revision in the file, which
the claims cite by line), the FieldIndexer (same file, class FieldIndexer),
the normalization helpers getNormalizedLevel / getNormalizedEnvironment
(src/app/core/workers/parse-logs.worker.ts, the search-utils
implementation), and the legacy free-text matcher of the worker
(tokenizeQuery / stemWord / fuzzyMatch / matchesQuery / calculateRelevance).

Modelling conventions:
- JavaScript strings are modelled as `List Char` (`Str`).  String literals
  are injected with `str`.  JavaScript `toLowerCase` / `toUpperCase` are
  modelled with the ASCII `Char.toLower` / `Char.toUpper`; relational
  comparison of strings is code-point lexicographic, which agrees with the
  UTF-16 code-unit order of JavaScript on the basic multilingual plane.
- JavaScript numbers that can be NaN are modelled by `JSNum`
  (an integer or `nan`); all numbers appearing in log entries are integers.
- `Date.parse` and `new RegExp(...).test` are platform functions; they are
  passed in as explicit oracle parameters `dp : DateParse` (with `none`
  standing for a NaN result) and `rt : RegexTest` (with `none` standing for
  a constructor throw on an invalid pattern).
- JavaScript `null` is `Option.none` at function results; inside JSON
  object values `JValue.vnull` and `JValue.vundef` represent the null and
  undefined values, `JValue.vobj s` a non-scalar object whose
  `String(...)` coercion is `s`.
- JavaScript `Map`s of posting lists are modelled as total functions from
  keys to lists, absent key meaning `[]`; this is observationally the
  behaviour of `map.get(k) || []` used in the source.
-/

/-- Character strings of the modelled program. -/
abbrev Str : Type := List Char

/-- Injects a Lean string literal into the model string type. -/
def str (s : String) : Str := s.data

/-- Model of JavaScript toLowerCase (ASCII range). -/
def toLowerStr (s : Str) : Str := s.map Char.toLower

/-- Model of JavaScript toUpperCase (ASCII range). -/
def toUpperStr (s : Str) : Str := s.map Char.toUpper

/-- Tests whether the second list is an initial segment of the first,
modelling String.prototype.startsWith. -/
def strStarts : Str → Str → Bool
  | _, [] => true
  | [], _ :: _ => false
  | a :: as, b :: bs => a == b && strStarts as bs

/-- Model of String.prototype.endsWith. -/
def strEnds (s p : Str) : Bool := strStarts s.reverse p.reverse

/-- Model of String.prototype.includes: the pattern occurs somewhere. -/
def strIncludes (s p : Str) : Bool := s.tails.any (fun t => strStarts t p)

/-- Strict lexicographic order on strings, modelling the JavaScript
comparison s < t on strings. -/
def strLt : Str → Str → Bool
  | [], [] => false
  | [], _ :: _ => true
  | _ :: _, [] => false
  | a :: as, b :: bs => if a < b then true else if b < a then false else strLt as bs

/-- JavaScript s > t on strings. -/
def strGt (s t : Str) : Bool := strLt t s

/-- JavaScript s >= t on strings (total order, so the negation of <). -/
def strGe (s t : Str) : Bool := !(strLt s t)

/-- JavaScript s <= t on strings. -/
def strLe (s t : Str) : Bool := !(strLt t s)

/-- Model of String.prototype.trim: strips whitespace from both ends. -/
def trimStr (s : Str) : Str :=
  ((s.dropWhile Char.isWhitespace).reverse.dropWhile Char.isWhitespace).reverse

/-- Splits a list at every element satisfying the predicate; the separators
are dropped and empty pieces are kept.  Together with a later filter for
non-empty (or length-bounded) pieces this models a JavaScript
split-on-character-class-plus regex, whose only difference is how many
empty pieces appear between consecutive separators. -/
def splitP (p : Char → Bool) : Str → List Str
  | [] => [[]]
  | c :: rest =>
    match splitP p rest with
    | [] => if p c then [[], []] else [[c]]
    | t :: ts => if p c then [] :: t :: ts else (c :: t) :: ts

/-- A JavaScript number that may be NaN; every concrete number occurring in
the modelled data is an integer (epoch milliseconds, pino levels, pids). -/
inductive JSNum where
  | num (n : Int)
  | nan
  deriving DecidableEq, Repr

/-- A JavaScript runtime value as stored in parsed log records. -/
inductive JValue where
  | vstr (s : Str)
  | vnum (n : Int)
  | vnan
  | vbool (b : Bool)
  | vnull
  | vundef
  | vobj (repr : Str)
  deriving DecidableEq, Repr

/-- Model of the JavaScript String(...) coercion on the value domain. -/
def jsToString : JValue → Str
  | JValue.vstr s => s
  | JValue.vnum n => str (toString n)
  | JValue.vnan => str "NaN"
  | JValue.vbool b => if b then str "true" else str "false"
  | JValue.vnull => str "null"
  | JValue.vundef => str "undefined"
  | JValue.vobj r => r

/-- JavaScript truthiness of a value. -/
def jsTruthy : JValue → Bool
  | JValue.vstr s => !s.isEmpty
  | JValue.vnum n => n != 0
  | JValue.vnan => false
  | JValue.vbool b => b
  | JValue.vnull => false
  | JValue.vundef => false
  | JValue.vobj _ => true

/-- JavaScript typeof v === number (NaN is a number). -/
def jsIsNumber : JValue → Bool
  | JValue.vnum _ => true
  | JValue.vnan => true
  | _ => false

/-- Coerces a falsy value to null, modelling the idiom (v || null). -/
def orNull (v : Option JValue) : Option JValue :=
  match v with
  | some x => if jsTruthy x then some x else none
  | none => none

/-- Collapses null and undefined to absence, modelling (v ?? null) reads. -/
def nullish (v : Option JValue) : Option JValue :=
  match v with
  | some JValue.vnull => none
  | some JValue.vundef => none
  | x => x

/-- Association-list lookup modelling a JavaScript property read, where an
absent property is undefined (none). -/
def jsGet (obj : List (Str × JValue)) (k : Str) : Option JValue :=
  (obj.find? (fun p => p.1 == k)).map (·.2)

/-- Association-list lookup for string-valued maps (Loki labels). -/
def jsGetStr (obj : List (Str × Str)) (k : Str) : Option Str :=
  (obj.find? (fun p => p.1 == k)).map (·.2)

/-- Result of Date.parse: none models NaN (unparseable input). -/
abbrev DateParse : Type := Str → Option Int

/-- Result of building a regex from pattern and flags and testing strings:
none models a constructor throw on an invalid pattern. -/
abbrev RegexTest : Type := Str → Str → Option (Str → Bool)

/-- The req sub-object of a pino entry. -/
structure PinoReq where
  id : Str
  method : Str
  url : Str
  remoteAddress : Option Str
  deriving DecidableEq, Repr

/-- The res sub-object of a pino entry. -/
structure PinoRes where
  statusCode : Int
  responseTimeMs : Option Int
  deriving DecidableEq, Repr

/-- A pino log record (time is epoch milliseconds, level one of
10/20/30/40/50/60 in well-formed data). -/
structure PinoEntry where
  time : Int
  level : Int
  pid : Int
  hostname : Str
  name : Str
  msg : Str
  req : Option PinoReq
  res : Option PinoRes
  meta : Option (List (Str × JValue))
  extra : List (Str × JValue)
  deriving DecidableEq, Repr

/-- A winston log record. -/
structure WinstonEntry where
  timestamp : Str
  level : Str
  message : Str
  meta : Option (List (Str × JValue))
  extra : List (Str × JValue)
  deriving DecidableEq, Repr

/-- A loki log record; labels is a string-valued map. -/
structure LokiEntry where
  ts : Str
  labels : List (Str × Str)
  line : Str
  extra : List (Str × JValue)
  deriving DecidableEq, Repr

/-- A promtail log record. -/
structure PromtailEntry where
  ts : Str
  level : Str
  message : Str
  extra : List (Str × JValue)
  deriving DecidableEq, Repr

/-- A docker log record. -/
structure DockerEntry where
  log : Str
  stream : Str
  time : Str
  extra : List (Str × JValue)
  deriving DecidableEq, Repr

/-- A parsed log entry: the tagged union discriminated by kind. -/
inductive Entry where
  | pino (e : PinoEntry)
  | winston (e : WinstonEntry)
  | loki (e : LokiEntry)
  | promtail (e : PromtailEntry)
  | docker (e : DockerEntry)
  | text (line : Str)
  | unknownJson (obj : List (Str × JValue))
  deriving DecidableEq, Repr

/-- The kind discriminator string of an entry. -/
def Entry.kind : Entry → Str
  | Entry.pino _ => str "pino"
  | Entry.winston _ => str "winston"
  | Entry.loki _ => str "loki"
  | Entry.promtail _ => str "promtail"
  | Entry.docker _ => str "docker"
  | Entry.text _ => str "text"
  | Entry.unknownJson _ => str "unknown-json"

/-- Tests for a JavaScript word character (the regex class backslash-w). -/
def isWordChar (c : Char) : Bool := c.isAlphanum || c == '_'

/-- Tests that position i in s is at a word boundary on its right side:
either the end of the string or a non-word character follows. -/
def boundaryAt (s : Str) (i : Nat) : Bool :=
  match s.drop i with
  | [] => true
  | c :: _ => !isWordChar c

/-- The level words of the docker level regex, in alternation order. -/
def levelWords : List Str :=
  [str "trace", str "debug", str "info", str "warn", str "error", str "fatal"]

/-- The environment words of the env regex, in alternation order. -/
def envWords : List Str := [str "dev", str "staging", str "prod"]

/-- Finds the leftmost match of key followed by one of the given words at a
word boundary inside the already lowercased text, returning the word;
models the regexes of the form key=(w1|w2|...)b with the ignore-case flag
applied to lowercased input. -/
def scanKeyVal (key : Str) (words : List Str) (s : Str) : Option Str :=
  (List.range (s.length + 1)).findSome? (fun i =>
    if strStarts (s.drop i) key then
      words.find? (fun w =>
        strStarts (s.drop (i + key.length)) w && boundaryAt s (i + key.length + w.length))
    else none)

/-- Normalizes the level of an entry to one of trace, debug, info, warn,
error, fatal or unknown; translated from getNormalizedLevel in the worker
(the search-utils implementation the evaluator imports). -/
def getNormalizedLevel : Entry → Str
  | Entry.pino e =>
    if e.level = 10 then str "trace"
    else if e.level = 20 then str "debug"
    else if e.level = 30 then str "info"
    else if e.level = 40 then str "warn"
    else if e.level = 50 then str "error"
    else if e.level = 60 then str "fatal"
    else str "unknown"
  | Entry.winston e =>
    let l := toLowerStr e.level
    if l = str "silly" ∨ l = str "verbose" then str "trace"
    else if l = str "debug" then str "debug"
    else if l = str "info" then str "info"
    else if l = str "warn" then str "warn"
    else if l = str "error" then str "error"
    else str "unknown"
  | Entry.promtail e =>
    let l := toLowerStr e.level
    if l = str "debug" ∨ l = str "info" ∨ l = str "warn" ∨ l = str "error" then l
    else str "unknown"
  | Entry.loki e =>
    match jsGetStr e.labels (str "level") with
    | some l => toLowerStr l
    | none => str "unknown"
  | Entry.docker e =>
    match scanKeyVal (str "level=") levelWords (toLowerStr e.log) with
    | some w => w
    | none => str "unknown"
  | Entry.text line =>
    let up := toUpperStr (line.takeWhile (fun c => !c.isWhitespace))
    if up = str "TRACE" then str "trace"
    else if up = str "DEBUG" then str "debug"
    else if up = str "INFO" then str "info"
    else if up = str "WARN" then str "warn"
    else if up = str "ERROR" then str "error"
    else if up = str "FATAL" then str "fatal"
    else str "unknown"
  | Entry.unknownJson obj =>
    match nullish (jsGet obj (str "level")) <|> nullish (jsGet obj (str "logLevel")) <|>
        nullish (jsGet obj (str "lvl")) <|> nullish (jsGet obj (str "severity")) with
    | some (JValue.vstr s) =>
      let lc := toLowerStr s
      if strIncludes lc (str "trace") then str "trace"
      else if strIncludes lc (str "debug") then str "debug"
      else if strIncludes lc (str "info") then str "info"
      else if strIncludes lc (str "warn") then str "warn"
      else if strIncludes lc (str "error") then str "error"
      else if strIncludes lc (str "fatal") then str "fatal"
      else str "unknown"
    | _ => str "unknown"

/-- Normalizes the environment of an entry to dev, staging, prod or
unknown; translated from getNormalizedEnvironment in the worker. -/
def getNormalizedEnvironment : Entry → Str
  | Entry.loki e =>
    match jsGetStr e.labels (str "environment") with
    | some s => if s = str "dev" ∨ s = str "staging" ∨ s = str "prod" then s else str "unknown"
    | none => str "unknown"
  | Entry.pino e =>
    match e.meta with
    | some m =>
      match jsGet m (str "environment") with
      | some (JValue.vstr s) =>
        if s = str "dev" ∨ s = str "staging" ∨ s = str "prod" then s else str "unknown"
      | _ => str "unknown"
    | none => str "unknown"
  | Entry.winston e =>
    match e.meta with
    | some m =>
      match jsGet m (str "environment") with
      | some (JValue.vstr s) =>
        if s = str "dev" ∨ s = str "staging" ∨ s = str "prod" then s else str "unknown"
      | _ => str "unknown"
    | none => str "unknown"
  | Entry.promtail e =>
    match jsGet e.extra (str "environment") with
    | some (JValue.vstr s) =>
      if s = str "dev" ∨ s = str "staging" ∨ s = str "prod" then s else str "unknown"
    | _ => str "unknown"
  | Entry.docker e =>
    match scanKeyVal (str "env=") envWords (toLowerStr e.log) with
    | some w => w
    | none => str "unknown"
  | Entry.text line =>
    match scanKeyVal (str "env=") envWords (toLowerStr line) with
    | some w => w
    | none => str "unknown"
  | Entry.unknownJson obj =>
    match nullish (jsGet obj (str "environment")) <|> nullish (jsGet obj (str "env")) <|>
        nullish (jsGet obj (str "envName")) with
    | some (JValue.vstr s) =>
      if s = str "dev" ∨ s = str "staging" ∨ s = str "prod" then s else str "unknown"
    | _ => str "unknown"

/-- Coerces an empty string to null, modelling the idiom (s || null). -/
def orNullStr (s : Str) : Option Str := if s.isEmpty then none else some s

/-- Extracts the message text of an entry; translated from extractMessage
of the evaluator (first revision). -/
def extractMessage : Entry → Option Str
  | Entry.pino e => orNullStr e.msg
  | Entry.winston e => orNullStr e.message
  | Entry.loki e => orNullStr e.line
  | Entry.promtail e => orNullStr e.message
  | Entry.docker e => orNullStr e.log
  | Entry.text line => orNullStr line
  | Entry.unknownJson _ => none

/-- Wraps a Date.parse result as a JavaScript number (NaN on failure). -/
def parseToJSNum (dp : DateParse) (s : Str) : JSNum :=
  match dp s with
  | some n => JSNum.num n
  | none => JSNum.nan

/-- Extracts the timestamp of an entry as a JavaScript number or null;
translated from extractTimestamp of the evaluator (first revision), which
returns Date.parse results unguarded, hence NaN rather than null on
unparseable winston, loki, promtail and docker timestamps. -/
def extractTimestamp (dp : DateParse) : Entry → Option JSNum
  | Entry.pino e => some (JSNum.num e.time)
  | Entry.winston e => some (parseToJSNum dp e.timestamp)
  | Entry.loki e => some (parseToJSNum dp e.ts)
  | Entry.promtail e => some (parseToJSNum dp e.ts)
  | Entry.docker e => some (parseToJSNum dp e.time)
  | Entry.text _ => none
  | Entry.unknownJson _ => none

/-- Injects a JavaScript number into the value domain. -/
def jnumVal : JSNum → JValue
  | JSNum.num n => JValue.vnum n
  | JSNum.nan => JValue.vnan

/-- Dynamic property access on the raw per-format record, modelling the
default branch lookup anyEntry[fieldName] of extractFieldValue; non-scalar
members are represented as vobj values. -/
def genericLookup : Entry → Str → Option JValue
  | Entry.pino p, f =>
    if f = str "time" then some (JValue.vnum p.time)
    else if f = str "level" then some (JValue.vnum p.level)
    else if f = str "pid" then some (JValue.vnum p.pid)
    else if f = str "hostname" then some (JValue.vstr p.hostname)
    else if f = str "name" then some (JValue.vstr p.name)
    else if f = str "msg" then some (JValue.vstr p.msg)
    else if f = str "req" then p.req.map (fun _ => JValue.vobj (str "[object Object]"))
    else if f = str "res" then p.res.map (fun _ => JValue.vobj (str "[object Object]"))
    else if f = str "meta" then p.meta.map (fun _ => JValue.vobj (str "[object Object]"))
    else jsGet p.extra f
  | Entry.winston w, f =>
    if f = str "timestamp" then some (JValue.vstr w.timestamp)
    else if f = str "level" then some (JValue.vstr w.level)
    else if f = str "message" then some (JValue.vstr w.message)
    else if f = str "meta" then w.meta.map (fun _ => JValue.vobj (str "[object Object]"))
    else jsGet w.extra f
  | Entry.loki l, f =>
    if f = str "ts" then some (JValue.vstr l.ts)
    else if f = str "line" then some (JValue.vstr l.line)
    else if f = str "labels" then some (JValue.vobj (str "[object Object]"))
    else jsGet l.extra f
  | Entry.promtail p, f =>
    if f = str "ts" then some (JValue.vstr p.ts)
    else if f = str "level" then some (JValue.vstr p.level)
    else if f = str "message" then some (JValue.vstr p.message)
    else jsGet p.extra f
  | Entry.docker d, f =>
    if f = str "log" then some (JValue.vstr d.log)
    else if f = str "stream" then some (JValue.vstr d.stream)
    else if f = str "time" then some (JValue.vstr d.time)
    else jsGet d.extra f
  | Entry.text line, f =>
    if f = str "line" then some (JValue.vstr line) else none
  | Entry.unknownJson obj, f => jsGet obj f

/-- Extracts a named field of an entry as a scalar value or null;
translated from extractFieldValue of the evaluator (first revision): a
switch on the field name first, with a dynamic fallback lookup. -/
def extractFieldValue (dp : DateParse) (e : Entry) (f : Str) : Option JValue :=
  if f = str "level" then some (JValue.vstr (getNormalizedLevel e))
  else if f = str "environment" then some (JValue.vstr (getNormalizedEnvironment e))
  else if f = str "kind" then some (JValue.vstr e.kind)
  else if f = str "message" then (extractMessage e).map JValue.vstr
  else if f = str "timestamp" then (extractTimestamp dp e).map jnumVal
  else if f = str "msg" then
    match e with
    | Entry.pino p => some (JValue.vstr p.msg)
    | _ => none
  else if f = str "hostname" then
    match e with
    | Entry.pino p => some (JValue.vstr p.hostname)
    | _ => none
  else if f = str "pid" then
    match e with
    | Entry.pino p => some (JValue.vnum p.pid)
    | _ => none
  else if f = str "name" then
    match e with
    | Entry.pino p => some (JValue.vstr p.name)
    | _ => none
  else if f = str "time" then
    match e with
    | Entry.pino p => some (JValue.vnum p.time)
    | _ => none
  else if f = str "requestId" then
    match e with
    | Entry.winston w => orNull (w.meta.bind (fun m => jsGet m (str "requestId")))
    | _ => none
  else if f = str "userId" then
    match e with
    | Entry.winston w => orNull (w.meta.bind (fun m => jsGet m (str "userId")))
    | _ => none
  else if f = str "traceId" then
    match e with
    | Entry.winston w => orNull (w.meta.bind (fun m => jsGet m (str "traceId")))
    | _ => none
  else if f = str "line" then
    match e with
    | Entry.loki l => some (JValue.vstr l.line)
    | _ => none
  else if f = str "job" then
    match e with
    | Entry.loki l => orNull ((jsGetStr l.labels (str "job")).map JValue.vstr)
    | _ => none
  else if f = str "instance" then
    match e with
    | Entry.loki l => orNull ((jsGetStr l.labels (str "instance")).map JValue.vstr)
    | _ => none
  else if f = str "app" then
    match e with
    | Entry.loki l => orNull ((jsGetStr l.labels (str "app")).map JValue.vstr)
    | _ => none
  else if f = str "log" then
    match e with
    | Entry.docker d => some (JValue.vstr d.log)
    | _ => none
  else if f = str "stream" then
    match e with
    | Entry.docker d => some (JValue.vstr d.stream)
    | _ => none
  else if f = str "statusCode" then
    match e with
    | Entry.pino p =>
      match p.res with
      | some r => some (JValue.vnum r.statusCode)
      | none => none
    | _ => none
  else if f = str "method" then
    match e with
    | Entry.pino p =>
      match p.req with
      | some r => some (JValue.vstr r.method)
      | none => none
    | _ => none
  else if f = str "url" then
    match e with
    | Entry.pino p =>
      match p.req with
      | some r => some (JValue.vstr r.url)
      | none => none
    | _ => none
  else if f = str "responseTime" then
    match e with
    | Entry.pino p =>
      match p.res with
      | some r =>
        match r.responseTimeMs with
        | some n => some (JValue.vnum n)
        | none => some JValue.vundef
      | none => none
    | _ => none
  else nullish (genericLookup e f)

/-- The comparison operators of the query language. -/
inductive CompOp where
  | eq
  | ne
  | gt
  | lt
  | ge
  | le
  deriving DecidableEq, Repr

/-- Numeric strict greater-than with NaN never comparing true. -/
def jsNumGt : JValue → JValue → Bool
  | JValue.vnum a, JValue.vnum b => a > b
  | _, _ => false

/-- Numeric strict less-than with NaN never comparing true. -/
def jsNumLt : JValue → JValue → Bool
  | JValue.vnum a, JValue.vnum b => a < b
  | _, _ => false

/-- Numeric greater-or-equal with NaN never comparing true. -/
def jsNumGe : JValue → JValue → Bool
  | JValue.vnum a, JValue.vnum b => a ≥ b
  | _, _ => false

/-- Numeric less-or-equal with NaN never comparing true. -/
def jsNumLe : JValue → JValue → Bool
  | JValue.vnum a, JValue.vnum b => a ≤ b
  | _, _ => false

/-- Compares an extracted field value with a literal; translated from
compareValues of the evaluator (first revision): equality compares the
String coercions, ordering operators compare numerically when both sides
are numbers and lexicographically on the String coercions otherwise. -/
def compareValues (v : JValue) (op : CompOp) (t : JValue) : Bool :=
  let fs := jsToString v
  let ts := jsToString t
  match op with
  | CompOp.eq => fs == ts
  | CompOp.ne => fs != ts
  | CompOp.gt => if jsIsNumber v && jsIsNumber t then jsNumGt v t else strGt fs ts
  | CompOp.lt => if jsIsNumber v && jsIsNumber t then jsNumLt v t else strLt fs ts
  | CompOp.ge => if jsIsNumber v && jsIsNumber t then jsNumGe v t else strGe fs ts
  | CompOp.le => if jsIsNumber v && jsIsNumber t then jsNumLe v t else strLe fs ts

/-- The predicate functions of the query language. -/
inductive FuncName where
  | contains
  | startsWith
  | endsWith
  | matches
  deriving DecidableEq, Repr

/-- The argument of a function call node: a literal value or a regex
pattern with flags, as produced by the parser. -/
structure FuncArg where
  type : Str
  value : Option JValue
  pattern : Option Str
  flags : Option Str

/-- The string coercion of the call argument, modelling the idiom
String(argument.value or empty). -/
def argLiteralStr (arg : FuncArg) : Str :=
  match arg.value with
  | some v => if jsTruthy v then jsToString v else []
  | none => []

/-- The string-literal-as-regex fallback branch of the matches function. -/
def applyMatchesFallback (rt : RegexTest) (fieldValue : Str) (arg : FuncArg) : Bool :=
  match arg.value with
  | some v =>
    if jsTruthy v then
      match rt (jsToString v) [] with
      | some test => test fieldValue
      | none => false
    else false
  | none => false

/-- Applies a predicate function to a stringified field value; translated
from applyFunction of the evaluator (first revision): contains, startsWith
and endsWith lowercase both the field value and the literal, matches tests
the compiled regex against the original field value. -/
def applyFunction (rt : RegexTest) (fieldValue : Str) (fn : FuncName) (arg : FuncArg) : Bool :=
  let fieldLower := toLowerStr fieldValue
  match fn with
  | FuncName.contains => strIncludes fieldLower (toLowerStr (argLiteralStr arg))
  | FuncName.startsWith => strStarts fieldLower (toLowerStr (argLiteralStr arg))
  | FuncName.endsWith => strEnds fieldLower (toLowerStr (argLiteralStr arg))
  | FuncName.matches =>
    match arg.pattern with
    | some p =>
      if arg.type = str "RegexPattern" ∧ ¬p.isEmpty then
        match rt p (arg.flags.getD []) with
        | some test => test fieldValue
        | none => false
      else applyMatchesFallback rt fieldValue arg
    | none => applyMatchesFallback rt fieldValue arg

/-- The boolean connectives of the query language. -/
inductive BoolOp where
  | and
  | or
  deriving DecidableEq, Repr

/-- A literal of a comparison node, carrying the parser value type tag. -/
structure QueryValue where
  value : JValue
  valueType : Str
  deriving DecidableEq, Repr

/-- The query AST. -/
inductive ASTNode where
  | binary (op : BoolOp) (left right : ASTNode)
  | notExpr (expression : ASTNode)
  | comparison (field : Str) (op : CompOp) (value : QueryValue)
  | funcCall (field : Str) (fn : FuncName) (arg : FuncArg)

/-- The secondary indexes of a FieldIndexer; posting maps are total
functions with absent keys mapping to the empty list.  The telemetry
fields indexedAt and memoryEstimateBytes of the source are wall-clock and
size bookkeeping with no bearing on query results and are not modelled. -/
structure FieldIndexes where
  byLevel : Str → List Nat
  byEnvironment : Str → List Nat
  byKind : Str → List Nat
  timestamps : List (Nat × JSNum)
  messageKeywords : Str → List Nat
  totalEntries : Nat

/-- The freshly created empty index aggregate. -/
def emptyIndexes : FieldIndexes where
  byLevel := fun _ => []
  byEnvironment := fun _ => []
  byKind := fun _ => []
  timestamps := []
  messageKeywords := fun _ => []
  totalEntries := 0

/-- Appends an entry index to the posting list of one key. -/
def pushKey (m : Str → List Nat) (k : Str) (i : Nat) : Str → List Nat :=
  fun k2 => if k2 = k then m k ++ [i] else m k2

/-- The fixed English stopword set of the keyword index, reproduced
literally from isStopWord of the FieldIndexer. -/
def stopWords : List Str :=
  [str "the", str "and", str "or", str "but", str "in", str "on", str "at", str "to",
   str "for", str "of", str "with", str "a", str "an", str "as", str "by", str "is",
   str "was", str "are", str "were", str "been", str "be", str "have", str "has",
   str "had", str "do", str "does", str "did", str "will", str "would", str "could",
   str "should", str "may", str "might", str "must", str "can", str "this", str "that",
   str "these", str "those", str "it", str "its", str "from"]

/-- Membership in the stopword set. -/
def isStopWord (w : Str) : Bool := stopWords.contains w

/-- The keywords indexed for one message: lowercase, split on whitespace,
keep tokens of length at least 3 that are not stopwords, take the first
10; translated from indexMessageKeywords of the FieldIndexer. -/
def keywordTokens (message : Str) : List Str :=
  ((splitP Char.isWhitespace (toLowerStr message)).filter
    (fun w => 3 ≤ w.length && !isStopWord w)).take 10

/-- Pushes one message into the keyword posting map. -/
def indexMessageKeywords (message : Str) (i : Nat) (m : Str → List Nat) : Str → List Nat :=
  (keywordTokens message).foldl (fun acc kw => pushKey acc kw i) m

/-- Total preorder used to model the JavaScript timestamp sort comparator
(a, b) => a.timestamp - b.timestamp.  On integer timestamps it is the
numeric order; the comparator is not well defined on NaN in JavaScript
(the sort order is then implementation defined), and the model places NaN
last; theorems about sortedness carry NaN-freedom hypotheses so that no
result depends on this choice. -/
def tsLeB : JSNum → JSNum → Bool
  | JSNum.num x, JSNum.num y => x ≤ y
  | JSNum.num _, JSNum.nan => true
  | JSNum.nan, JSNum.num _ => false
  | JSNum.nan, JSNum.nan => true

/-- The sort relation on timestamp pairs. -/
def tsLeSort (a b : Nat × JSNum) : Prop := tsLeB a.2 b.2 = true

instance : DecidableRel tsLeSort := fun a b => instDecidableEqBool (tsLeB a.2 b.2) true

instance : IsTotal (Nat × JSNum) tsLeSort :=
  ⟨by
    intro a b
    cases ha : a.2 <;> cases hb : b.2 <;> simp [tsLeSort, tsLeB, ha, hb]
    omega⟩

instance : IsTrans (Nat × JSNum) tsLeSort :=
  ⟨by
    intro a b c hab hbc
    cases ha : a.2 <;> cases hb : b.2 <;> cases hc : c.2 <;> simp_all [tsLeSort, tsLeB]
    omega⟩

/-- Stable ascending sort of the timestamp array, modelling
timestamps.sort((a, b) => a.timestamp - b.timestamp). -/
def sortTimestamps (l : List (Nat × JSNum)) : List (Nat × JSNum) :=
  l.insertionSort tsLeSort

/-- Indexes a single entry under all five indexes; translated from
indexEntry of the FieldIndexer.  The level and environment extractions are
total in the model, so the silently-skip catch branches of the source are
never taken; the timestamp and message are only indexed when present,
exactly as in the source. -/
def indexEntry (dp : DateParse) (e : Entry) (i : Nat) (idx : FieldIndexes) : FieldIndexes :=
  let idx1 := { idx with byLevel := pushKey idx.byLevel (getNormalizedLevel e) i }
  let idx2 := { idx1 with byEnvironment := pushKey idx1.byEnvironment (getNormalizedEnvironment e) i }
  let idx3 := { idx2 with byKind := pushKey idx2.byKind e.kind i }
  let idx4 :=
    match extractTimestamp dp e with
    | some t => { idx3 with timestamps := idx3.timestamps ++ [(i, t)] }
    | none => idx3
  match extractMessage e with
  | some m => { idx4 with messageKeywords := indexMessageKeywords m i idx4.messageKeywords }
  | none => idx4

/-- Wipes and rebuilds all indexes from the given entries, sorting the
timestamp array at the end; translated from buildIndexes. -/
def buildIndexes (dp : DateParse) (entries : List Entry) : FieldIndexes :=
  let base := entries.enum.foldl (fun idx p => indexEntry dp p.2 p.1 idx) emptyIndexes
  { base with
    timestamps := sortTimestamps base.timestamps
    totalEntries := entries.length }

/-- Incrementally indexes one entry without re-sorting the timestamp
array; translated from addEntry. -/
def addEntry (dp : DateParse) (e : Entry) (i : Nat) (idx : FieldIndexes) : FieldIndexes :=
  let x := indexEntry dp e i idx
  { x with totalEntries := x.totalEntries + 1 }

/-- Incrementally indexes a batch starting at the given index and re-sorts
the timestamp array afterwards; translated from addBatch. -/
def addBatch (dp : DateParse) (entries : List Entry) (startIndex : Nat) (idx : FieldIndexes) : FieldIndexes :=
  let x := entries.enum.foldl (fun acc p => indexEntry dp p.2 (startIndex + p.1) acc) idx
  { x with
    totalEntries := x.totalEntries + entries.length
    timestamps := sortTimestamps x.timestamps }

/-- Exact map lookup by normalized level. -/
def queryByLevel (idx : FieldIndexes) (level : Str) : List Nat := idx.byLevel level

/-- Exact map lookup by normalized environment. -/
def queryByEnvironment (idx : FieldIndexes) (env : Str) : List Nat := idx.byEnvironment env

/-- Exact map lookup by entry kind. -/
def queryByKind (idx : FieldIndexes) (kind : Str) : List Nat := idx.byKind kind

/-- Exact map lookup by lowercased keyword. -/
def queryByKeyword (idx : FieldIndexes) (keyword : Str) : List Nat :=
  idx.messageKeywords (toLowerStr keyword)

/-- Comparison of a stored timestamp against the range start, where a null
start behaves as negative infinity and NaN comparisons are false. -/
def tsLtStart (t : JSNum) (startMs : Option Int) : Bool :=
  match t, startMs with
  | JSNum.num x, some s => x < s
  | JSNum.num _, none => false
  | JSNum.nan, _ => false

/-- Comparison of a stored timestamp against the range end, where a null
end behaves as positive infinity and NaN comparisons are false. -/
def tsLeEnd (t : JSNum) (endMs : Option Int) : Bool :=
  match t, endMs with
  | JSNum.num x, some e => x ≤ e
  | JSNum.num _, none => true
  | JSNum.nan, _ => false

/-- The timestamp stored at a position of the array; the default is never
reached by the algorithm, which only reads positions below the length. -/
def tsAt (l : List (Nat × JSNum)) (i : Nat) : JSNum :=
  match l.drop i with
  | [] => JSNum.nan
  | p :: _ => p.2

/-- The binary search loop of queryTimestampRange: narrows left and right
until left passes right, moving left past positions whose timestamp is
below the range start.  left stays a natural number as in the source
(it starts at 0 and only grows); right can reach -1. -/
def bsLoop (ts : List (Nat × JSNum)) (startMs : Option Int) (left : Nat) (right : Int) : Nat :=
  if h : (left : Int) ≤ right then
    if tsLtStart (tsAt ts ((left + right.toNat) / 2)) startMs then
      bsLoop ts startMs ((left + right.toNat) / 2 + 1) right
    else bsLoop ts startMs left ((((left + right.toNat) / 2 : Nat) : Int) - 1)
  else left
termination_by (right + 1 - (left : Int)).toNat
decreasing_by
  all_goals omega

/-- Returns the indices of entries whose timestamp lies in the inclusive
range, in timestamp order: binary search for the first position not below
the start, then a forward scan while the end is not exceeded; translated
from queryTimestampRange of the FieldIndexer. -/
def queryTimestampRange (ts : List (Nat × JSNum)) (startMs endMs : Option Int) : List Nat :=
  if ts.isEmpty then []
  else
    let left := bsLoop ts startMs 0 ((ts.length : Int) - 1)
    ((ts.drop left).takeWhile (fun p => tsLeEnd p.2 endMs)).map (·.1)

/-- The entry store and optional indexer a query is evaluated against. -/
structure EvaluationContext where
  entries : List Entry
  indexer : Option FieldIndexes

/-- The result of an evaluation.  The evaluationTimeMs field of the source
is a wall-clock measurement and is not modelled. -/
structure EvaluationResult where
  matchedIndices : List Nat
  usedIndexes : Bool

/-- The full-scan path of comparison evaluation: extract the field of
every entry and keep the indices where the extraction is non-null and the
comparison holds. -/
def fullScanComparison (dp : DateParse) (entries : List Entry) (f : Str) (op : CompOp)
    (target : JValue) : List Nat :=
  (entries.enum.filter (fun p =>
    match extractFieldValue dp p.2 f with
    | some v => compareValues v op target
    | none => false)).map (·.1)

/-- Evaluates a comparison node; translated from
evaluateComparisonExpression of the evaluator (first revision): with an
indexer, equality on level or environment is a direct lookup, operators on
timestamp with a date-parseable string literal are range queries, and
everything else falls back to a full scan. -/
def evaluateComparisonExpression (dp : DateParse) (f : Str) (op : CompOp) (qv : QueryValue)
    (ctx : EvaluationContext) : List Nat :=
  match ctx.indexer with
  | none => fullScanComparison dp ctx.entries f op qv.value
  | some ix =>
    if op = CompOp.eq ∧ f = str "level" then queryByLevel ix (jsToString qv.value)
    else if op = CompOp.eq ∧ f = str "environment" then queryByEnvironment ix (jsToString qv.value)
    else if f = str "timestamp" ∧ qv.valueType = str "string" then
      match dp (jsToString qv.value) with
      | some t =>
        match op with
        | CompOp.gt => queryTimestampRange ix.timestamps (some (t + 1)) none
        | CompOp.ge => queryTimestampRange ix.timestamps (some t) none
        | CompOp.lt => queryTimestampRange ix.timestamps none (some (t - 1))
        | CompOp.le => queryTimestampRange ix.timestamps none (some t)
        | CompOp.eq => queryTimestampRange ix.timestamps (some t) (some t)
        | CompOp.ne => fullScanComparison dp ctx.entries f op qv.value
      | none => fullScanComparison dp ctx.entries f op qv.value
    else fullScanComparison dp ctx.entries f op qv.value

/-- The full-scan path of function-call evaluation. -/
def fullScanFunction (dp : DateParse) (rt : RegexTest) (entries : List Entry) (f : Str)
    (fn : FuncName) (arg : FuncArg) : List Nat :=
  (entries.enum.filter (fun p =>
    match extractFieldValue dp p.2 f with
    | some v => applyFunction rt (jsToString v) fn arg
    | none => false)).map (·.1)

/-- Evaluates a function-call node; translated from evaluateFunctionCall
of the evaluator (first revision): contains on message with a string
literal and an indexer present goes through the keyword index and then
re-verifies each candidate (a truthiness check on the extracted value,
then the real predicate); everything else is a full scan. -/
def evaluateFunctionCall (dp : DateParse) (rt : RegexTest) (f : Str) (fn : FuncName)
    (arg : FuncArg) (ctx : EvaluationContext) : List Nat :=
  match ctx.indexer with
  | none => fullScanFunction dp rt ctx.entries f fn arg
  | some ix =>
    match arg.value with
    | some (JValue.vstr s) =>
      if fn = FuncName.contains ∧ arg.type = str "Literal" ∧ f = str "message" then
        (queryByKeyword ix (toLowerStr s)).filter (fun j =>
          match (ctx.entries.get? j).bind (fun e => extractFieldValue dp e f) with
          | some v => jsTruthy v && applyFunction rt (jsToString v) fn arg
          | none => false)
      else fullScanFunction dp rt ctx.entries f fn arg
    | _ => fullScanFunction dp rt ctx.entries f fn arg

/-- Evaluates an AST node to the list of matching entry indices;
translated from evaluateNode / evaluateBinaryExpression /
evaluateNotExpression of the evaluator (first revision).  AND keeps the
right-hand indices that occur on the left, OR deduplicates the
concatenation and sorts ascending (any deduplication order yields the same
sorted result on the resulting distinct numbers), NOT complements against
the index range of the entry store. -/
def evaluateNode (dp : DateParse) (rt : RegexTest) : ASTNode → EvaluationContext → List Nat
  | ASTNode.binary op l r, ctx =>
    let li := evaluateNode dp rt l ctx
    let ri := evaluateNode dp rt r ctx
    match op with
    | BoolOp.and => ri.filter (fun i => li.contains i)
    | BoolOp.or => ((li ++ ri).dedup).insertionSort (· ≤ ·)
  | ASTNode.notExpr inner, ctx =>
    let s := evaluateNode dp rt inner ctx
    (List.range ctx.entries.length).filter (fun i => !s.contains i)
  | ASTNode.comparison f op qv, ctx => evaluateComparisonExpression dp f op qv ctx
  | ASTNode.funcCall f fn arg, ctx => evaluateFunctionCall dp rt f fn arg ctx

/-- Evaluates a query AST against a context; translated from
evaluateQuery. -/
def evaluateQuery (dp : DateParse) (rt : RegexTest) (ast : ASTNode)
    (ctx : EvaluationContext) : EvaluationResult where
  matchedIndices := evaluateNode dp rt ast ctx
  usedIndexes := ctx.indexer.isSome

/-- The double-quote character (code 34). -/
def quoteChar : Char := Char.ofNat 34

/-- Tests for the token-delimiter character class of the legacy matcher:
whitespace or one of the punctuation characters
minus underscore period comma semicolon colon slash backslash pipe
parentheses brackets braces angle brackets double quote single quote. -/
def isDelimChar (c : Char) : Bool :=
  c.isWhitespace ||
    [45, 95, 46, 44, 59, 58, 47, 92, 124, 40, 41, 91, 93, 123, 125, 60, 62, 34, 39].contains
      c.toNat

/-- The suffix list of the stemmer, in source order (with its duplicated
entries reproduced). -/
def stemSuffixes : List Str :=
  [str "ing", str "ly", str "ed", str "ies", str "ied", str "ies", str "ied", str "s", str "es"]

/-- Strips the first listed suffix of a word when the remainder keeps at
least two characters; translated from stemWord of the worker. -/
def stemWord (w : Str) : Str :=
  match stemSuffixes.find? (fun suf => strEnds w suf && decide (w.length > suf.length + 1)) with
  | some suf => w.take (w.length - suf.length)
  | none => w

/-- State machine collecting the contents of the double-quoted groups of a
string, left to right: outside a group (state none) a quote opens a group,
inside a group (state some acc) a quote closes it and emits the
accumulated content; an unterminated final group emits nothing.  This is
the match sequence of the repeated exec of the global phrase regex. -/
def scanQuotesAux : Str → Option Str → List Str
  | [], _ => []
  | c :: rest, none =>
    if c = quoteChar then scanQuotesAux rest (some []) else scanQuotesAux rest none
  | c :: rest, some acc =>
    if c = quoteChar then acc.reverse :: scanQuotesAux rest none
    else scanQuotesAux rest (some (c :: acc))

/-- The contents of the double-quoted groups of a string, left to right. -/
def scanQuotes (s : Str) : List Str := scanQuotesAux s none

/-- Removes the first occurrence of the pattern, modelling
String.prototype.replace with a plain string pattern and empty
replacement. -/
def removeFirst : Str → Str → Str
  | [], _ => []
  | c :: rest, pat =>
    if strStarts (c :: rest) pat then (c :: rest).drop pat.length
    else c :: removeFirst rest pat

/-- Tokenizes a legacy free-text query: trim and lowercase, extract the
double-quoted phrases (each trimmed), delete each quoted group from the
remainder, split the remainder on the delimiter class, drop empty pieces
and stem every token; translated from tokenizeQuery of the worker.
Returns the pair of tokens and phrases. -/
def tokenizeQuery (query : Str) : List Str × List Str :=
  let trimmed := toLowerStr (trimStr query)
  if trimmed.isEmpty then ([], [])
  else
    let inners := scanQuotes trimmed
    let phrases := inners.map trimStr
    let remaining :=
      inners.foldl (fun acc inner => removeFirst acc (quoteChar :: (inner ++ [quoteChar]))) trimmed
    let rawTokens := (splitP isDelimChar remaining).filter (fun t => !t.isEmpty)
    (rawTokens.map stemWord, phrases)

/-- The number of positions up to the longer length at which the two
strings disagree (a position past the end of one string counts as a
disagreement), modelling the index-by-index comparison loop of
fuzzyMatch. -/
def mismatchCount : Str → Str → Nat
  | [], bs => bs.length
  | _ :: as, [] => 1 + mismatchCount as []
  | a :: as, b :: bs => (if a = b then 0 else 1) + mismatchCount as bs

/-- Positional fuzzy match; translated from fuzzyMatch of the worker: the
lengths may differ by at most maxDistance and the index-by-index
disagreement count must stay within maxDistance.  This is not an edit
distance: an insertion or deletion shifts every later position. -/
def fuzzyMatch (text query : Str) (maxDistance : Nat) : Bool :=
  if text.length > query.length + maxDistance ∨ query.length > text.length + maxDistance then false
  else mismatchCount text query ≤ maxDistance

/-- Tests a search text against the tokens and phrases of a legacy query:
every phrase must occur as a substring of the lowercased text, and every
token must occur as a substring or positionally fuzzy-match (distance 1)
some delimiter-separated word of length at least 3; translated from
matchesQuery of the worker. -/
def matchesQuery (searchText : Str) (tokens phrases : List Str) : Bool :=
  let lowerSearch := toLowerStr searchText
  phrases.all (fun ph => strIncludes lowerSearch ph) &&
    tokens.all (fun token =>
      strIncludes lowerSearch token ||
        (splitP isDelimChar lowerSearch).any (fun word =>
          3 ≤ word.length && fuzzyMatch word token 1))

/-- Scanner for non-overlapping occurrences: the counter argument is the
number of positions still to skip after a match (a match at a position
consumes the whole pattern before the scan may match again). -/
def countOccAux (pat : Str) : Str → Nat → Nat
  | [], _ => 0
  | c :: rest, 0 =>
    if strStarts (c :: rest) pat then 1 + countOccAux pat rest (pat.length - 1)
    else countOccAux pat rest 0
  | _ :: rest, k + 1 => countOccAux pat rest k

/-- Counts the non-overlapping left-to-right occurrences of the pattern,
modelling the global regex match count for tokens without regex
metacharacters (tokens are non-empty by construction). -/
def countOcc (pat s : Str) : Nat := countOccAux pat s 0

/-- Tests whether a word character sits at the given position. -/
def isWordCharAt (s : Str) (i : Nat) : Bool :=
  match s.drop i with
  | [] => false
  | c :: _ => isWordChar c

/-- Tests for an occurrence of the pattern flanked by word boundaries,
modelling the boundary-wrapped regex test for tokens made of word
characters. -/
def hasBoundaryOcc (s pat : Str) : Bool :=
  (List.range (s.length + 1)).any (fun i =>
    strStarts (s.drop i) pat &&
      (decide (i = 0) || !isWordCharAt s (i - 1)) &&
      boundaryAt s (i + pat.length))

/-- The additive relevance score of a search text: 100 per found phrase
(tested against the original text), and per token 10 per occurrence, 20
for a word-boundary occurrence and 15 for a prefix occurrence (tested
against the lowercased text); translated from calculateRelevance of the
worker. -/
def calculateRelevance (searchText : Str) (tokens phrases : List Str) : Nat :=
  let phraseScore :=
    phrases.foldl (fun sc ph => if strIncludes searchText ph then sc + 100 else sc) 0
  tokens.foldl (fun sc token =>
    let lowerSearch := toLowerStr searchText
    let occScore := countOcc token lowerSearch * 10
    let boundaryScore := if hasBoundaryOcc lowerSearch token then 20 else 0
    let startScore := if strStarts lowerSearch token then 15 else 0
    sc + occScore + boundaryScore + startScore) phraseScore

/-- The Levenshtein edit distance, computed with the standard dynamic
programming row recurrence.  The specification describes fuzzyMatch as an
edit distance bound; this definition states that notion so that it can be
compared with the positional fuzzyMatch of the source. -/
def editRowGo (a : Char) : Str → List Nat → Nat → List Nat
  | b :: bs2, dprev :: drest, eprev =>
    let dj := drest.headD 0
    let enext := if a = b then dprev else 1 + min dprev (min dj eprev)
    enext :: editRowGo a bs2 drest enext
  | _, _, _ => []

/-- One row step of the edit distance table, for one character of the
first string. -/
def editRowStep (bs : Str) (row : List Nat) (a : Char) : List Nat :=
  match row with
  | d0 :: _ => (d0 + 1) :: editRowGo a bs row (d0 + 1)
  | [] => []

/-- The Levenshtein edit distance between two strings. -/
def specEditDistance (as bs : Str) : Nat :=
  (as.foldl (editRowStep bs) (List.range (bs.length + 1))).getLastD 0

/-- Injects a list of integer timestamps (with their entry indices) into
the JavaScript number domain. -/
def tsOfInts (l : List (Nat × Int)) : List (Nat × JSNum) :=
  l.map (fun p => (p.1, JSNum.num p.2))

/-- The inclusive lower range test of a timestamp query on integers, with
a null start behaving as negative infinity. -/
def startOkB (t : Int) (s : Option Int) : Bool :=
  match s with
  | some x => x ≤ t
  | none => true

/-- The inclusive upper range test of a timestamp query on integers, with
a null end behaving as positive infinity. -/
def endOkB (t : Int) (e : Option Int) : Bool :=
  match e with
  | some y => t ≤ y
  | none => true

/-- Ascending order between stored timestamps, constraining only pairs of
real numbers: pairs involving NaN are unconstrained because the JavaScript
sort comparator is not well defined on them. -/
def tsNumLe : JSNum → JSNum → Prop
  | JSNum.num x, JSNum.num y => x ≤ y
  | JSNum.num _, JSNum.nan => True
  | JSNum.nan, _ => True

instance : ∀ a b : JSNum, Decidable (tsNumLe a b)
  | JSNum.num x, JSNum.num y => inferInstanceAs (Decidable (x ≤ y))
  | JSNum.num _, JSNum.nan => Decidable.isTrue trivial
  | JSNum.nan, JSNum.num _ => Decidable.isTrue trivial
  | JSNum.nan, JSNum.nan => Decidable.isTrue trivial

/-- The timestamp array is sorted ascending (on its real-number values). -/
abbrev TsSortedNum (l : List (Nat × JSNum)) : Prop :=
  l.Pairwise (fun a b => tsNumLe a.2 b.2)

/-- A date-parse oracle on which every string is unparseable; pino entries
carry numeric timestamps and never consult it. -/
def dateParseNone : DateParse := fun _ => none

/-- A regex oracle on which every pattern is invalid. -/
def regexNone : RegexTest := fun _ _ => none

/-- A regex oracle that is faithful to RegExp test for patterns free of
regex metacharacters and with no flags: the pattern matches as a literal
substring, case sensitively. -/
def regexLiteral : RegexTest := fun p _ => some (fun s => strIncludes s p)

/-- A pino entry with the given message and fixed remaining fields. -/
def pinoWithMsg (m : Str) : Entry :=
  Entry.pino
    { time := 1, level := 30, pid := 1, hostname := str "h", name := str "n", msg := m,
      req := none, res := none, meta := none, extra := [] }

/-- A pino entry with the given timestamp and an empty message. -/
def pinoWithTime (t : Int) : Entry :=
  Entry.pino
    { time := t, level := 30, pid := 1, hostname := str "h", name := str "n", msg := [],
      req := none, res := none, meta := none, extra := [] }

/-- A winston entry whose timestamp string is not date-parseable. -/
def winstonBadTs : Entry :=
  Entry.winston
    { timestamp := str "not-a-date", level := str "info", message := str "m", meta := none,
      extra := [] }

/-- The AST node contains(message, w) with a string literal argument. -/
def containsMessageNode (w : Str) : ASTNode :=
  ASTNode.funcCall (str "message") FuncName.contains
    { type := str "Literal", value := some (JValue.vstr w), pattern := none, flags := none }

/-- The AST node comparing a field for equality with a string literal. -/
def eqNode (f v : Str) : ASTNode :=
  ASTNode.comparison f CompOp.eq { value := JValue.vstr v, valueType := str "string" }

/-- A function argument holding a regex pattern with no flags. -/
def regexArg (p : Str) : FuncArg :=
  { type := str "RegexPattern", value := none, pattern := some p, flags := none }

/-! Helper lemmas about the enumerate-filter-map shape shared by the
full-scan paths of the evaluator and by the posting lists of the
indexer. -/

theorem mem_scanFilterMap_iff {α : Type} (l : List α) (p : Nat × α → Bool) (i : Nat) :
    i ∈ (l.enum.filter p).map Prod.fst ↔ ∃ a, l.get? i = some a ∧ p (i, a) = true := by
  constructor
  · intro h
    rcases List.mem_map.mp h with ⟨q, hq, hfst⟩
    rcases List.mem_filter.mp hq with ⟨hmem, hp⟩
    rcases q with ⟨j, a⟩
    rcases List.mem_enum hmem with ⟨hlt, hval⟩
    cases hfst
    refine ⟨a, ?_, hp⟩
    rw [List.get?_eq_getElem?, List.getElem?_eq_some]
    exact ⟨hlt, hval.symm⟩
  · rintro ⟨a, hga, hp⟩
    rw [List.get?_eq_getElem?, List.getElem?_eq_some] at hga
    rcases hga with ⟨hlt, hval⟩
    refine List.mem_map.mpr ⟨(i, a), List.mem_filter.mpr ⟨?_, hp⟩, rfl⟩
    refine List.mem_iff_getElem.mpr ⟨i, ?_, ?_⟩
    · rw [List.enum_length]
      exact hlt
    · rw [List.getElem_enum]
      rw [hval]

theorem nodup_scanFilterMap {α : Type} (l : List α) (p : Nat × α → Bool) :
    ((l.enum.filter p).map Prod.fst).Nodup := by
  have h1 : ((l.enum.filter p).map Prod.fst).Sublist (l.enum.map Prod.fst) :=
    (List.filter_sublist _).map _
  rw [List.enum_map_fst] at h1
  exact h1.nodup (List.nodup_range _)

theorem contains_iff_mem_nat (l : List Nat) (i : Nat) : l.contains i = true ↔ i ∈ l := by
  simp [List.contains, List.elem_iff]

/-- C2: on every evaluation context, an AND node evaluates to exactly the
set intersection of the evaluations of its operands, an OR node to
exactly their set union, and a NOT node to exactly the complement of the
evaluation of its operand with respect to the full index range
[0, entries.length). -/
theorem and_or_not_are_set_operations (dp : DateParse) (rt : RegexTest) (p q : ASTNode)
    (ctx : EvaluationContext) :
    (evaluateNode dp rt (ASTNode.binary BoolOp.and p q) ctx).toFinset
        = (evaluateNode dp rt p ctx).toFinset ∩ (evaluateNode dp rt q ctx).toFinset
      ∧ (evaluateNode dp rt (ASTNode.binary BoolOp.or p q) ctx).toFinset
        = (evaluateNode dp rt p ctx).toFinset ∪ (evaluateNode dp rt q ctx).toFinset
      ∧ (evaluateNode dp rt (ASTNode.notExpr p) ctx).toFinset
        = Finset.range ctx.entries.length \ (evaluateNode dp rt p ctx).toFinset := by
  refine ⟨?_, ?_, ?_⟩
  · ext i
    simp only [evaluateNode, List.mem_toFinset, List.mem_filter, Finset.mem_inter,
      contains_iff_mem_nat]
    tauto
  · ext i
    simp only [evaluateNode, List.mem_toFinset, Finset.mem_union,
      List.mem_insertionSort, List.mem_dedup, List.mem_append]
  · ext i
    simp only [evaluateNode, List.mem_toFinset, List.mem_filter, Finset.mem_sdiff,
      Finset.mem_range, List.mem_range, contains_iff_mem_nat, Bool.not_eq_true',
      Bool.not_eq_true]
    constructor
    · rintro ⟨h1, h2⟩
      exact ⟨h1, by simpa [contains_iff_mem_nat] using h2⟩
    · rintro ⟨h1, h2⟩
      exact ⟨h1, by simpa [contains_iff_mem_nat] using h2⟩

/-- C8 (amended): without an indexer every evaluation path returns each
entry index at most once: the full scans emit indices in strictly
increasing order, AND filters a duplicate-free list, OR deduplicates
explicitly and NOT filters the index range.  (With an indexer, the
keyword-index contains path can duplicate an index, which is the
counterexample to the claim as stated.) -/
theorem matched_indices_nodup_without_indexer (dp : DateParse) (rt : RegexTest)
    (ast : ASTNode) (es : List Entry) :
    (evaluateNode dp rt ast { entries := es, indexer := none }).Nodup := by
  induction ast with
  | binary op l r ihl ihr =>
    cases op
    · simpa only [evaluateNode] using List.Nodup.filter _ ihr
    · simpa only [evaluateNode] using
        ((List.perm_insertionSort _ _).nodup_iff).mpr (List.nodup_dedup _)
  | notExpr inner ih =>
    simpa only [evaluateNode] using List.Nodup.filter _ (List.nodup_range _)
  | comparison f op qv =>
    simpa only [evaluateNode, evaluateComparisonExpression, fullScanComparison] using
      nodup_scanFilterMap es _
  | funcCall f fn arg =>
    simpa only [evaluateNode, evaluateFunctionCall, fullScanFunction] using
      nodup_scanFilterMap es _

/-- C8 (counterexample): with an indexer built from a single pino entry
whose message repeats the keyword, the contains(message, w) keyword path
returns the same index twice, so the matched index list is not
deduplicated. -/
theorem matched_indices_duplicate_on_keyword_path :
    evaluateNode dateParseNone regexNone (containsMessageNode (str "error"))
        { entries := [pinoWithMsg (str "error error")],
          indexer := some (buildIndexes dateParseNone [pinoWithMsg (str "error error")]) }
        = [0, 0]
      ∧ ¬ (evaluateNode dateParseNone regexNone (containsMessageNode (str "error"))
        { entries := [pinoWithMsg (str "error error")],
          indexer := some (buildIndexes dateParseNone [pinoWithMsg (str "error error")]) }).Nodup := by
  constructor
  · decide
  · decide

/-- C6: in the full-scan paths taken by comparison and function-call
evaluation without an indexer, an entry whose field extraction yields
null is never in the match set, and membership of an index is equivalent
to a predicate on that entry alone (so one failed extraction cannot
affect any other entry). -/
theorem null_field_never_matches_on_full_scan (dp : DateParse) (rt : RegexTest)
    (es : List Entry) (f : Str) (op : CompOp) (qv : QueryValue) (fn : FuncName) (arg : FuncArg)
    (i : Nat) (e : Entry) (h : es.get? i = some e) :
    (extractFieldValue dp e f = none →
        i ∉ evaluateNode dp rt (ASTNode.comparison f op qv) { entries := es, indexer := none }
          ∧ i ∉ evaluateNode dp rt (ASTNode.funcCall f fn arg) { entries := es, indexer := none })
      ∧ (i ∈ evaluateNode dp rt (ASTNode.comparison f op qv) { entries := es, indexer := none } ↔
          ∃ v, extractFieldValue dp e f = some v ∧ compareValues v op qv.value = true)
      ∧ (i ∈ evaluateNode dp rt (ASTNode.funcCall f fn arg) { entries := es, indexer := none } ↔
          ∃ v, extractFieldValue dp e f = some v
            ∧ applyFunction rt (jsToString v) fn arg = true) := by
  have hcomp : i ∈ evaluateNode dp rt (ASTNode.comparison f op qv)
        { entries := es, indexer := none } ↔
      ∃ v, extractFieldValue dp e f = some v ∧ compareValues v op qv.value = true := by
    simp only [evaluateNode, evaluateComparisonExpression, fullScanComparison]
    rw [mem_scanFilterMap_iff]
    constructor
    · rintro ⟨a, hga, hp⟩
      have hae : a = e := by
        have := h.symm.trans hga
        exact (Option.some.inj this).symm
      subst hae
      cases hv : extractFieldValue dp a f with
      | none => rw [hv] at hp; simp at hp
      | some v =>
        rw [hv] at hp
        exact ⟨v, rfl, hp⟩
    · rintro ⟨v, hv, hcv⟩
      exact ⟨e, h, by simp [hv, hcv]⟩
  have hfunc : i ∈ evaluateNode dp rt (ASTNode.funcCall f fn arg)
        { entries := es, indexer := none } ↔
      ∃ v, extractFieldValue dp e f = some v ∧ applyFunction rt (jsToString v) fn arg = true := by
    simp only [evaluateNode, evaluateFunctionCall, fullScanFunction]
    rw [mem_scanFilterMap_iff]
    constructor
    · rintro ⟨a, hga, hp⟩
      have hae : a = e := by
        have := h.symm.trans hga
        exact (Option.some.inj this).symm
      subst hae
      cases hv : extractFieldValue dp a f with
      | none => rw [hv] at hp; simp at hp
      | some v =>
        rw [hv] at hp
        exact ⟨v, rfl, hp⟩
    · rintro ⟨v, hv, hcv⟩
      exact ⟨e, h, by simp [hv, hcv]⟩
  refine ⟨fun hnull => ⟨fun hmem => ?_, fun hmem => ?_⟩, hcomp, hfunc⟩
  · rcases hcomp.mp hmem with ⟨v, hv, _⟩
    rw [hnull] at hv
    cases hv
  · rcases hfunc.mp hmem with ⟨v, hv, _⟩
    rw [hnull] at hv
    cases hv

/-- Witness for C6 at a concrete one-entry store and the message field. -/
theorem null_field_never_matches_on_full_scan_witness :
    [pinoWithMsg (str "boom")].get? 0 = some (pinoWithMsg (str "boom"))
      ∧ (0 ∈ evaluateNode dateParseNone regexNone
            (ASTNode.comparison (str "message") CompOp.eq
              { value := JValue.vstr (str "boom"), valueType := str "string" })
            { entries := [pinoWithMsg (str "boom")], indexer := none } ↔
          ∃ v, extractFieldValue dateParseNone (pinoWithMsg (str "boom")) (str "message") = some v
            ∧ compareValues v CompOp.eq (JValue.vstr (str "boom")) = true) :=
  ⟨rfl,
    (null_field_never_matches_on_full_scan dateParseNone regexNone [pinoWithMsg (str "boom")]
      (str "message") CompOp.eq { value := JValue.vstr (str "boom"), valueType := str "string" }
      FuncName.contains ⟨str "Literal", some (JValue.vstr (str "boom")), none, none⟩ 0
      (pinoWithMsg (str "boom")) rfl).2.1⟩

/-- C10: contains, startsWith and endsWith are insensitive to the case of
both the field value and the literal (each is lowercased before the
comparison), while matches applies the compiled regex to the original
field value, so that two field values equal up to case can give different
results when the regex is case sensitive. -/
theorem function_predicates_case_handling (rt : RegexTest) (fv fv2 : Str) (arg arg2 : FuncArg)
    (hf : toLowerStr fv = toLowerStr fv2)
    (ha : toLowerStr (argLiteralStr arg) = toLowerStr (argLiteralStr arg2)) :
    (applyFunction rt fv FuncName.contains arg = applyFunction rt fv2 FuncName.contains arg2
      ∧ applyFunction rt fv FuncName.startsWith arg
          = applyFunction rt fv2 FuncName.startsWith arg2
      ∧ applyFunction rt fv FuncName.endsWith arg = applyFunction rt fv2 FuncName.endsWith arg2)
    ∧ (toLowerStr (str "ERROR") = toLowerStr (str "error")
      ∧ applyFunction regexLiteral (str "ERROR") FuncName.matches (regexArg (str "ERROR")) = true
      ∧ applyFunction regexLiteral (str "error") FuncName.matches (regexArg (str "ERROR"))
          = false) := by
  constructor
  · refine ⟨?_, ?_, ?_⟩ <;> simp only [applyFunction, hf, ha]
  · exact ⟨by decide, by decide, by decide⟩

/-- Witness for C10 at concrete mixed-case inputs. -/
theorem function_predicates_case_handling_witness :
    toLowerStr (str "AbC") = toLowerStr (str "abc")
      ∧ (applyFunction regexNone (str "AbC") FuncName.contains
            { type := str "Literal", value := some (JValue.vstr (str "B")), pattern := none,
              flags := none }
          = applyFunction regexNone (str "abc") FuncName.contains
            { type := str "Literal", value := some (JValue.vstr (str "b")), pattern := none,
              flags := none }) :=
  ⟨by decide,
    (function_predicates_case_handling regexNone (str "AbC") (str "abc")
      ⟨str "Literal", some (JValue.vstr (str "B")), none, none⟩
      ⟨str "Literal", some (JValue.vstr (str "b")), none, none⟩
      (by decide) (by decide)).1.1⟩

/-! Characterizations of the index structures produced by indexEntry and
buildIndexes, feeding the index-versus-scan claims. -/

theorem mem_enum_iff_get {α : Type} {l : List α} {i : Nat} {a : α} :
    (i, a) ∈ l.enum ↔ l.get? i = some a := by
  constructor
  · intro h
    rcases List.mem_enum h with ⟨hlt, hval⟩
    rw [List.get?_eq_getElem?, List.getElem?_eq_some]
    exact ⟨hlt, hval.symm⟩
  · intro h
    rw [List.get?_eq_getElem?, List.getElem?_eq_some] at h
    rcases h with ⟨hlt, hval⟩
    refine List.mem_iff_getElem.mpr ⟨i, ?_, ?_⟩
    · rw [List.enum_length]
      exact hlt
    · rw [List.getElem_enum, hval]

theorem indexEntry_byLevel (dp : DateParse) (e : Entry) (i : Nat) (idx : FieldIndexes) :
    (indexEntry dp e i idx).byLevel = pushKey idx.byLevel (getNormalizedLevel e) i := by
  unfold indexEntry
  cases extractTimestamp dp e <;> cases extractMessage e <;> rfl

theorem indexEntry_byEnvironment (dp : DateParse) (e : Entry) (i : Nat) (idx : FieldIndexes) :
    (indexEntry dp e i idx).byEnvironment
      = pushKey idx.byEnvironment (getNormalizedEnvironment e) i := by
  unfold indexEntry
  cases extractTimestamp dp e <;> cases extractMessage e <;> rfl

theorem indexEntry_byKind (dp : DateParse) (e : Entry) (i : Nat) (idx : FieldIndexes) :
    (indexEntry dp e i idx).byKind = pushKey idx.byKind e.kind i := by
  unfold indexEntry
  cases extractTimestamp dp e <;> cases extractMessage e <;> rfl

theorem indexEntry_totalEntries (dp : DateParse) (e : Entry) (i : Nat) (idx : FieldIndexes) :
    (indexEntry dp e i idx).totalEntries = idx.totalEntries := by
  unfold indexEntry
  cases extractTimestamp dp e <;> cases extractMessage e <;> rfl

theorem indexEntry_timestamps (dp : DateParse) (e : Entry) (i : Nat) (idx : FieldIndexes) :
    (indexEntry dp e i idx).timestamps
      = idx.timestamps ++
          (match extractTimestamp dp e with
            | some t => [(i, t)]
            | none => []) := by
  unfold indexEntry
  cases extractTimestamp dp e <;> cases extractMessage e <;> simp

theorem indexEntry_messageKeywords (dp : DateParse) (e : Entry) (i : Nat) (idx : FieldIndexes) :
    (indexEntry dp e i idx).messageKeywords
      = (match extractMessage e with
          | some m => indexMessageKeywords m i idx.messageKeywords
          | none => idx.messageKeywords) := by
  unfold indexEntry
  cases extractTimestamp dp e <;> cases extractMessage e <;> rfl

theorem foldl_indexEntry_byLevel (dp : DateParse) (l : List (Nat × Entry)) :
    ∀ (st : FieldIndexes) (k : Str),
      (l.foldl (fun idx p => indexEntry dp p.2 p.1 idx) st).byLevel k
        = st.byLevel k
            ++ (l.filter (fun p => getNormalizedLevel p.2 == k)).map Prod.fst := by
  induction l with
  | nil => intro st k; simp
  | cons p t ih =>
    intro st k
    rw [List.foldl_cons, ih, indexEntry_byLevel]
    unfold pushKey
    by_cases h : k = getNormalizedLevel p.2
    · subst h
      simp [List.filter_cons]
    · rw [if_neg h, List.filter_cons]
      have hb : (getNormalizedLevel p.2 == k) = false := by
        simp [beq_iff_eq]
        exact fun hc => h hc.symm
      simp [hb]

theorem foldl_indexEntry_byEnvironment (dp : DateParse) (l : List (Nat × Entry)) :
    ∀ (st : FieldIndexes) (k : Str),
      (l.foldl (fun idx p => indexEntry dp p.2 p.1 idx) st).byEnvironment k
        = st.byEnvironment k
            ++ (l.filter (fun p => getNormalizedEnvironment p.2 == k)).map Prod.fst := by
  induction l with
  | nil => intro st k; simp
  | cons p t ih =>
    intro st k
    rw [List.foldl_cons, ih, indexEntry_byEnvironment]
    unfold pushKey
    by_cases h : k = getNormalizedEnvironment p.2
    · subst h
      simp [List.filter_cons]
    · rw [if_neg h, List.filter_cons]
      have hb : (getNormalizedEnvironment p.2 == k) = false := by
        simp [beq_iff_eq]
        exact fun hc => h hc.symm
      simp [hb]

theorem foldl_indexEntry_byKind (dp : DateParse) (l : List (Nat × Entry)) :
    ∀ (st : FieldIndexes) (k : Str),
      (l.foldl (fun idx p => indexEntry dp p.2 p.1 idx) st).byKind k
        = st.byKind k ++ (l.filter (fun p => p.2.kind == k)).map Prod.fst := by
  induction l with
  | nil => intro st k; simp
  | cons p t ih =>
    intro st k
    rw [List.foldl_cons, ih, indexEntry_byKind]
    unfold pushKey
    by_cases h : k = p.2.kind
    · subst h
      simp [List.filter_cons]
    · rw [if_neg h, List.filter_cons]
      have hb : (p.2.kind == k) = false := by
        simp [beq_iff_eq]
        exact fun hc => h hc.symm
      simp [hb]

theorem buildIndexes_byLevel (dp : DateParse) (es : List Entry) (k : Str) :
    (buildIndexes dp es).byLevel k
      = (es.enum.filter (fun p => getNormalizedLevel p.2 == k)).map Prod.fst := by
  show (es.enum.foldl (fun idx p => indexEntry dp p.2 p.1 idx) emptyIndexes).byLevel k = _
  rw [foldl_indexEntry_byLevel]
  simp [emptyIndexes]

theorem buildIndexes_byEnvironment (dp : DateParse) (es : List Entry) (k : Str) :
    (buildIndexes dp es).byEnvironment k
      = (es.enum.filter (fun p => getNormalizedEnvironment p.2 == k)).map Prod.fst := by
  show (es.enum.foldl (fun idx p => indexEntry dp p.2 p.1 idx) emptyIndexes).byEnvironment k = _
  rw [foldl_indexEntry_byEnvironment]
  simp [emptyIndexes]

theorem buildIndexes_byKind (dp : DateParse) (es : List Entry) (k : Str) :
    (buildIndexes dp es).byKind k
      = (es.enum.filter (fun p => p.2.kind == k)).map Prod.fst := by
  show (es.enum.foldl (fun idx p => indexEntry dp p.2 p.1 idx) emptyIndexes).byKind k = _
  rw [foldl_indexEntry_byKind]
  simp [emptyIndexes]

theorem extractFieldValue_level (dp : DateParse) (e : Entry) :
    extractFieldValue dp e (str "level") = some (JValue.vstr (getNormalizedLevel e)) := by
  unfold extractFieldValue
  rw [if_pos rfl]

theorem extractFieldValue_environment (dp : DateParse) (e : Entry) :
    extractFieldValue dp e (str "environment")
      = some (JValue.vstr (getNormalizedEnvironment e)) := by
  unfold extractFieldValue
  rw [if_neg (by decide), if_pos rfl]

theorem fullScanComparison_level (dp : DateParse) (es : List Entry) (target : JValue) :
    fullScanComparison dp es (str "level") CompOp.eq target
      = (es.enum.filter (fun p => getNormalizedLevel p.2 == jsToString target)).map Prod.fst := by
  unfold fullScanComparison
  have h : ∀ x ∈ es.enum,
      (match extractFieldValue dp x.2 (str "level") with
        | some v => compareValues v CompOp.eq target
        | none => false)
        = (getNormalizedLevel x.2 == jsToString target) := by
    intro x _
    rw [extractFieldValue_level]
    simp [compareValues, jsToString]
  rw [List.filter_congr h]

theorem fullScanComparison_environment (dp : DateParse) (es : List Entry) (target : JValue) :
    fullScanComparison dp es (str "environment") CompOp.eq target
      = (es.enum.filter
          (fun p => getNormalizedEnvironment p.2 == jsToString target)).map Prod.fst := by
  unfold fullScanComparison
  have h : ∀ x ∈ es.enum,
      (match extractFieldValue dp x.2 (str "environment") with
        | some v => compareValues v CompOp.eq target
        | none => false)
        = (getNormalizedEnvironment x.2 == jsToString target) := by
    intro x _
    rw [extractFieldValue_environment]
    simp [compareValues, jsToString]
  rw [List.filter_congr h]

/-- Every index the verified keyword path returns is also returned by the
full scan of the same contains predicate, for any indexer whatsoever: the
re-verification step keeps only indices whose entry truly satisfies the
predicate. -/
theorem evalContains_indexed (dp : DateParse) (rt : RegexTest) (es : List Entry)
    (ix : FieldIndexes) (s : Str) :
    evaluateNode dp rt (containsMessageNode s) { entries := es, indexer := some ix }
      = (queryByKeyword ix (toLowerStr s)).filter (fun j =>
          match (es.get? j).bind (fun e => extractFieldValue dp e (str "message")) with
          | some v =>
            jsTruthy v && applyFunction rt (jsToString v) FuncName.contains
              ⟨str "Literal", some (JValue.vstr s), none, none⟩
          | none => false) := rfl

theorem evalContains_scan (dp : DateParse) (rt : RegexTest) (es : List Entry) (s : Str) :
    evaluateNode dp rt (containsMessageNode s) { entries := es, indexer := none }
      = fullScanFunction dp rt es (str "message") FuncName.contains
          ⟨str "Literal", some (JValue.vstr s), none, none⟩ := rfl

theorem keyword_path_subset (dp : DateParse) (rt : RegexTest) (es : List Entry)
    (ix : FieldIndexes) (s : Str) (j : Nat)
    (hj : j ∈ evaluateNode dp rt (containsMessageNode s)
        { entries := es, indexer := some ix }) :
    j ∈ evaluateNode dp rt (containsMessageNode s) { entries := es, indexer := none } := by
  rw [evalContains_indexed] at hj
  rw [evalContains_scan]
  rcases List.mem_filter.mp hj with ⟨_, hp⟩
  cases hb : (es.get? j) with
  | none =>
    rw [hb] at hp
    simp at hp
  | some e =>
    rw [hb, Option.some_bind] at hp
    cases hv : extractFieldValue dp e (str "message") with
    | none =>
      rw [hv] at hp
      simp at hp
    | some v =>
      rw [hv] at hp
      simp only [Bool.and_eq_true] at hp
      obtain ⟨_, happ⟩ := hp
      unfold fullScanFunction
      rw [mem_scanFilterMap_iff]
      exact ⟨e, hb, by rw [hv]; exact happ⟩

theorem evalLevelEq_indexed (dp : DateParse) (rt : RegexTest) (es : List Entry)
    (ix : FieldIndexes) (qv : QueryValue) :
    evaluateNode dp rt (ASTNode.comparison (str "level") CompOp.eq qv)
        { entries := es, indexer := some ix }
      = queryByLevel ix (jsToString qv.value) := rfl

theorem evalLevelEq_scan (dp : DateParse) (rt : RegexTest) (es : List Entry) (qv : QueryValue) :
    evaluateNode dp rt (ASTNode.comparison (str "level") CompOp.eq qv)
        { entries := es, indexer := none }
      = fullScanComparison dp es (str "level") CompOp.eq qv.value := rfl

theorem evalEnvEq_indexed (dp : DateParse) (rt : RegexTest) (es : List Entry)
    (ix : FieldIndexes) (qv : QueryValue) :
    evaluateNode dp rt (ASTNode.comparison (str "environment") CompOp.eq qv)
        { entries := es, indexer := some ix }
      = queryByEnvironment ix (jsToString qv.value) := rfl

theorem evalEnvEq_scan (dp : DateParse) (rt : RegexTest) (es : List Entry) (qv : QueryValue) :
    evaluateNode dp rt (ASTNode.comparison (str "environment") CompOp.eq qv)
        { entries := es, indexer := none }
      = fullScanComparison dp es (str "environment") CompOp.eq qv.value := rfl

/-- C1 (amended): with a FieldIndexer built from exactly the context
entries, equality queries on level and on environment return exactly the
full-scan result (even as lists), and the contains(message, w)
keyword-index path returns a subset of the full-scan result (the
re-verification removes every false positive).  The pre-filter can
however lose entries that the full-scan contains predicate matches
(substring-of-a-word literals, stopwords, tokens past the first ten), so
set equality does not hold for contains; the counterexample shows a lost
entry. -/
theorem index_scan_agreement (dp : DateParse) (rt : RegexTest) (es : List Entry)
    (qv : QueryValue) (s : Str) :
    (evaluateNode dp rt (ASTNode.comparison (str "level") CompOp.eq qv)
          { entries := es, indexer := some (buildIndexes dp es) }
        = evaluateNode dp rt (ASTNode.comparison (str "level") CompOp.eq qv)
          { entries := es, indexer := none })
      ∧ (evaluateNode dp rt (ASTNode.comparison (str "environment") CompOp.eq qv)
          { entries := es, indexer := some (buildIndexes dp es) }
        = evaluateNode dp rt (ASTNode.comparison (str "environment") CompOp.eq qv)
          { entries := es, indexer := none })
      ∧ (∀ j, j ∈ evaluateNode dp rt (containsMessageNode s)
            { entries := es, indexer := some (buildIndexes dp es) } →
          j ∈ evaluateNode dp rt (containsMessageNode s)
            { entries := es, indexer := none }) := by
  refine ⟨?_, ?_, fun j hj => keyword_path_subset dp rt es (buildIndexes dp es) s j hj⟩
  · rw [evalLevelEq_indexed, evalLevelEq_scan, queryByLevel, buildIndexes_byLevel,
      fullScanComparison_level]
  · rw [evalEnvEq_indexed, evalEnvEq_scan, queryByEnvironment, buildIndexes_byEnvironment,
      fullScanComparison_environment]

/-- Witness for C1 on a one-entry store where the keyword path does keep
the entry. -/
theorem index_scan_agreement_witness :
    0 ∈ evaluateNode dateParseNone regexNone (containsMessageNode (str "error"))
        { entries := [pinoWithMsg (str "error occurred")],
          indexer := some (buildIndexes dateParseNone [pinoWithMsg (str "error occurred")]) }
      ∧ 0 ∈ evaluateNode dateParseNone regexNone (containsMessageNode (str "error"))
        { entries := [pinoWithMsg (str "error occurred")], indexer := none } :=
  ⟨by decide,
    (index_scan_agreement dateParseNone regexNone [pinoWithMsg (str "error occurred")]
      { value := JValue.vstr (str "error"), valueType := str "string" } (str "error")).2.2 0
      (by decide)⟩

/-- C1 (counterexample): the literal err is a substring of the message
word error, so the full scan matches the entry, but the keyword index has
no posting under err and the indexed evaluation returns the empty set:
the keyword pre-filter loses an entry, refuting index/scan equivalence
for contains(message, w). -/
theorem index_scan_disagree_on_contains :
    evaluateNode dateParseNone regexNone (containsMessageNode (str "err"))
        { entries := [pinoWithMsg (str "error occurred")],
          indexer := some (buildIndexes dateParseNone [pinoWithMsg (str "error occurred")]) }
        = []
      ∧ evaluateNode dateParseNone regexNone (containsMessageNode (str "err"))
        { entries := [pinoWithMsg (str "error occurred")], indexer := none } = [0] := by
  constructor
  · decide
  · decide

theorem pushKeys_mem (i : Nat) (kws : List Str) :
    ∀ (mk : Str → List Nat) (key : Str) (j : Nat),
      j ∈ (kws.foldl (fun acc kw => pushKey acc kw i) mk) key
        ↔ j ∈ mk key ∨ (j = i ∧ key ∈ kws) := by
  induction kws with
  | nil => intro mk key j; simp
  | cons kw t ih =>
    intro mk key j
    rw [List.foldl_cons, ih]
    unfold pushKey
    by_cases h : key = kw
    · subst h
      rw [if_pos rfl]
      simp only [List.mem_append, List.mem_singleton, List.mem_cons, true_or, and_true]
      tauto
    · simp only [if_neg h, List.mem_cons]
      constructor
      · rintro (hm | ⟨rfl, hk⟩)
        · exact Or.inl hm
        · exact Or.inr ⟨rfl, Or.inr hk⟩
      · rintro (hm | ⟨rfl, hk | hk⟩)
        · exact Or.inl hm
        · exact absurd hk h
        · exact Or.inr ⟨rfl, hk⟩

theorem indexEntry_messageKeywords_mem (dp : DateParse) (e : Entry) (i : Nat)
    (idx : FieldIndexes) (key : Str) (j : Nat) :
    j ∈ (indexEntry dp e i idx).messageKeywords key
      ↔ j ∈ idx.messageKeywords key
          ∨ (j = i ∧ ∃ m, extractMessage e = some m ∧ key ∈ keywordTokens m) := by
  rw [indexEntry_messageKeywords]
  cases hm : extractMessage e with
  | none => simp [hm]
  | some m =>
    unfold indexMessageKeywords
    rw [pushKeys_mem]
    simp [hm]

theorem foldl_indexEntry_messageKeywords_mem (dp : DateParse) (l : List (Nat × Entry)) :
    ∀ (st : FieldIndexes) (key : Str) (j : Nat),
      j ∈ (l.foldl (fun idx p => indexEntry dp p.2 p.1 idx) st).messageKeywords key
        ↔ j ∈ st.messageKeywords key
            ∨ ∃ p ∈ l, j = p.1 ∧ ∃ m, extractMessage p.2 = some m ∧ key ∈ keywordTokens m := by
  induction l with
  | nil => intro st key j; simp
  | cons p t ih =>
    intro st key j
    rw [List.foldl_cons, ih, indexEntry_messageKeywords_mem]
    simp only [List.mem_cons]
    constructor
    · rintro ((hm | ⟨rfl, m, hem, hk⟩) | ⟨q, hq, rest⟩)
      · exact Or.inl hm
      · exact Or.inr ⟨p, Or.inl rfl, rfl, m, hem, hk⟩
      · exact Or.inr ⟨q, Or.inr hq, rest⟩
    · rintro (hm | ⟨q, hq | hq, rest⟩)
      · exact Or.inl (Or.inl hm)
      · subst hq
        exact Or.inl (Or.inr rest)
      · exact Or.inr ⟨q, hq, rest⟩

/-- C9: after buildIndexes, queryByKeyword k has a posting for an index
exactly when the lowercased k is among the indexed keywords of that
entry's message, the indexed keywords of a message being the first 10
whitespace-separated lowercased tokens of length at least 3 outside the
fixed stopword set; and the map lookups by level, environment and kind
return the empty list for any key no entry maps to (a lookup never
fails). -/
theorem keyword_index_contract (dp : DateParse) (es : List Entry) (k : Str) (j : Nat)
    (lv env kd : Str)
    (hlv : ∀ e ∈ es, getNormalizedLevel e ≠ lv)
    (henv : ∀ e ∈ es, getNormalizedEnvironment e ≠ env)
    (hkd : ∀ e ∈ es, e.kind ≠ kd) :
    (j ∈ queryByKeyword (buildIndexes dp es) k
        ↔ ∃ e m, es.get? j = some e ∧ extractMessage e = some m
            ∧ toLowerStr k ∈ keywordTokens m)
      ∧ queryByLevel (buildIndexes dp es) lv = []
      ∧ queryByEnvironment (buildIndexes dp es) env = []
      ∧ queryByKind (buildIndexes dp es) kd = [] := by
  refine ⟨?_, ?_, ?_, ?_⟩
  · show j ∈ (es.enum.foldl (fun idx p => indexEntry dp p.2 p.1 idx)
        emptyIndexes).messageKeywords (toLowerStr k) ↔ _
    rw [foldl_indexEntry_messageKeywords_mem]
    simp only [emptyIndexes, List.not_mem_nil, false_or]
    constructor
    · rintro ⟨⟨i, e⟩, hpe, rfl, m, hem, hk⟩
      exact ⟨e, m, mem_enum_iff_get.mp hpe, hem, hk⟩
    · rintro ⟨e, m, hg, hem, hk⟩
      exact ⟨(j, e), mem_enum_iff_get.mpr hg, rfl, m, hem, hk⟩
  · rw [queryByLevel, buildIndexes_byLevel]
    have h : (es.enum.filter (fun p => getNormalizedLevel p.2 == lv)) = [] := by
      rw [List.filter_eq_nil_iff]
      rintro ⟨i, e⟩ hpe
      have he : e ∈ es := by
        rcases List.mem_enum hpe with ⟨hlt, hval⟩
        rw [hval]
        exact List.getElem_mem hlt
      simp [beq_iff_eq]
      exact hlv e he
    rw [h]
    rfl
  · rw [queryByEnvironment, buildIndexes_byEnvironment]
    have h : (es.enum.filter (fun p => getNormalizedEnvironment p.2 == env)) = [] := by
      rw [List.filter_eq_nil_iff]
      rintro ⟨i, e⟩ hpe
      have he : e ∈ es := by
        rcases List.mem_enum hpe with ⟨hlt, hval⟩
        rw [hval]
        exact List.getElem_mem hlt
      simp [beq_iff_eq]
      exact henv e he
    rw [h]
    rfl
  · rw [queryByKind, buildIndexes_byKind]
    have h : (es.enum.filter (fun p => p.2.kind == kd)) = [] := by
      rw [List.filter_eq_nil_iff]
      rintro ⟨i, e⟩ hpe
      have he : e ∈ es := by
        rcases List.mem_enum hpe with ⟨hlt, hval⟩
        rw [hval]
        exact List.getElem_mem hlt
      simp [beq_iff_eq]
      exact hkd e he
    rw [h]
    rfl

/-- Witness for C9 on a one-entry store with unknown lookup keys. -/
theorem keyword_index_contract_witness :
    (∀ e ∈ [pinoWithMsg (str "error occurred")], getNormalizedLevel e ≠ str "nolevel")
      ∧ (0 ∈ queryByKeyword (buildIndexes dateParseNone [pinoWithMsg (str "error occurred")])
            (str "ERROR")
          ↔ ∃ e m, [pinoWithMsg (str "error occurred")].get? 0 = some e
              ∧ extractMessage e = some m ∧ toLowerStr (str "ERROR") ∈ keywordTokens m)
      ∧ queryByLevel (buildIndexes dateParseNone [pinoWithMsg (str "error occurred")])
          (str "nolevel") = [] :=
  ⟨by decide,
    (keyword_index_contract dateParseNone [pinoWithMsg (str "error occurred")] (str "ERROR") 0
      (str "nolevel") (str "noenv") (str "nokind") (by decide) (by decide) (by decide)).1,
    (keyword_index_contract dateParseNone [pinoWithMsg (str "error occurred")] (str "ERROR") 0
      (str "nolevel") (str "noenv") (str "nokind") (by decide) (by decide) (by decide)).2.1⟩

theorem foldl_indexEntry_batch_totalEntries (dp : DateParse) (startIndex : Nat)
    (l : List (Nat × Entry)) :
    ∀ st : FieldIndexes,
      (l.foldl (fun acc p => indexEntry dp p.2 (startIndex + p.1) acc) st).totalEntries
        = st.totalEntries := by
  induction l with
  | nil => intro st; rfl
  | cons p t ih =>
    intro st
    rw [List.foldl_cons, ih, indexEntry_totalEntries]

theorem foldl_indexEntry_timestamps (dp : DateParse) (l : List (Nat × Entry)) :
    ∀ st : FieldIndexes,
      (l.foldl (fun idx p => indexEntry dp p.2 p.1 idx) st).timestamps
        = st.timestamps
            ++ l.filterMap (fun p => (extractTimestamp dp p.2).map (fun t => (p.1, t))) := by
  induction l with
  | nil => intro st; simp
  | cons p t ih =>
    intro st
    rw [List.foldl_cons, ih, indexEntry_timestamps, List.filterMap_cons]
    cases extractTimestamp dp p.2 <;> simp

theorem foldl_indexEntry_batch_timestamps (dp : DateParse) (startIndex : Nat)
    (l : List (Nat × Entry)) :
    ∀ st : FieldIndexes,
      (l.foldl (fun acc p => indexEntry dp p.2 (startIndex + p.1) acc) st).timestamps
        = st.timestamps
            ++ l.filterMap
                (fun p => (extractTimestamp dp p.2).map (fun t => (startIndex + p.1, t))) := by
  induction l with
  | nil => intro st; simp
  | cons p t ih =>
    intro st
    rw [List.foldl_cons, ih, indexEntry_timestamps, List.filterMap_cons]
    cases extractTimestamp dp p.2 <;> simp

theorem tsLeSort_imp_tsNumLe (a b : Nat × JSNum) (hab : tsLeSort a b) : tsNumLe a.2 b.2 := by
  unfold tsLeSort tsLeB at hab
  unfold tsNumLe
  cases ha : a.2 <;> cases hb : b.2 <;> simp_all

theorem sortTimestamps_sorted (l : List (Nat × JSNum)) : TsSortedNum (sortTimestamps l) :=
  (List.sorted_insertionSort tsLeSort l).imp (fun hab => tsLeSort_imp_tsNumLe _ _ hab)

/-- C4 (amended): totalEntries bookkeeping holds after every one of the
three update operations (buildIndexes sets it to the batch length,
addEntry increments it by one, addBatch adds the batch length), and the
timestamp array is sorted ascending after buildIndexes and after addBatch
because both re-sort; addEntry appends without re-sorting, so the sorted
order survives only buildIndexes and addBatch (the counterexample shows a
single out-of-order addEntry breaking it).  The NaN-freedom hypotheses
restrict the sortedness statements to inputs on which the JavaScript sort
comparator is well defined. -/
theorem indexer_bookkeeping (dp : DateParse) (es es2 : List Entry) (e : Entry)
    (i startIndex : Nat) (st : FieldIndexes)
    (hb : ∀ e2 ∈ es, extractTimestamp dp e2 ≠ some JSNum.nan)
    (hsb : (∀ p ∈ st.timestamps, p.2 ≠ JSNum.nan)
      ∧ ∀ e2 ∈ es2, extractTimestamp dp e2 ≠ some JSNum.nan) :
    (buildIndexes dp es).totalEntries = es.length
      ∧ (addEntry dp e i st).totalEntries = st.totalEntries + 1
      ∧ (addBatch dp es2 startIndex st).totalEntries = st.totalEntries + es2.length
      ∧ TsSortedNum (buildIndexes dp es).timestamps
      ∧ TsSortedNum (addBatch dp es2 startIndex st).timestamps
      ∧ (∀ p ∈ (buildIndexes dp es).timestamps, p.2 ≠ JSNum.nan)
      ∧ (∀ p ∈ (addBatch dp es2 startIndex st).timestamps, p.2 ≠ JSNum.nan) := by
  refine ⟨rfl, ?_, ?_, sortTimestamps_sorted _, sortTimestamps_sorted _, ?_, ?_⟩
  · show (indexEntry dp e i st).totalEntries + 1 = st.totalEntries + 1
    rw [indexEntry_totalEntries]
  · show (es2.enum.foldl (fun acc p => indexEntry dp p.2 (startIndex + p.1) acc)
        st).totalEntries + es2.length = st.totalEntries + es2.length
    rw [foldl_indexEntry_batch_totalEntries]
  · intro p hp
    have hp2 : p ∈ (es.enum.foldl (fun idx q => indexEntry dp q.2 q.1 idx)
        emptyIndexes).timestamps :=
      (List.mem_insertionSort tsLeSort).mp hp
    rw [foldl_indexEntry_timestamps] at hp2
    rcases List.mem_append.mp hp2 with hp3 | hp3
    · simp [emptyIndexes] at hp3
    · rcases List.mem_filterMap.mp hp3 with ⟨q, hq, hval⟩
      have hqe : q.2 ∈ es := by
        rcases q with ⟨qi, qe⟩
        rcases List.mem_enum hq with ⟨hlt, hval2⟩
        rw [hval2]
        exact List.getElem_mem hlt
      cases hext : extractTimestamp dp q.2 with
      | none => rw [hext] at hval; cases hval
      | some t =>
        rw [hext] at hval
        cases hval
        intro hnan
        simp only at hnan
        exact hb q.2 hqe (by rw [hext, hnan])
  · intro p hp
    have hp2 : p ∈ (es2.enum.foldl (fun acc q => indexEntry dp q.2 (startIndex + q.1) acc)
        st).timestamps :=
      (List.mem_insertionSort tsLeSort).mp hp
    rw [foldl_indexEntry_batch_timestamps] at hp2
    rcases List.mem_append.mp hp2 with hp3 | hp3
    · exact hsb.1 p hp3
    · rcases List.mem_filterMap.mp hp3 with ⟨q, hq, hval⟩
      have hqe : q.2 ∈ es2 := by
        rcases q with ⟨qi, qe⟩
        rcases List.mem_enum hq with ⟨hlt, hval2⟩
        rw [hval2]
        exact List.getElem_mem hlt
      cases hext : extractTimestamp dp q.2 with
      | none => rw [hext] at hval; cases hval
      | some t =>
        rw [hext] at hval
        cases hval
        intro hnan
        simp only at hnan
        exact hsb.2 q.2 hqe (by rw [hext, hnan])

/-- Witness for C4 on a two-entry out-of-order build and an empty batch. -/
theorem indexer_bookkeeping_witness :
    (∀ e2 ∈ [pinoWithTime 200, pinoWithTime 100],
        extractTimestamp dateParseNone e2 ≠ some JSNum.nan)
      ∧ (buildIndexes dateParseNone [pinoWithTime 200, pinoWithTime 100]).totalEntries = 2
      ∧ TsSortedNum
          (buildIndexes dateParseNone [pinoWithTime 200, pinoWithTime 100]).timestamps :=
  ⟨by decide,
    (indexer_bookkeeping dateParseNone [pinoWithTime 200, pinoWithTime 100] [] (pinoWithTime 1)
      0 0 emptyIndexes (by decide) ⟨by decide, by decide⟩).1,
    (indexer_bookkeeping dateParseNone [pinoWithTime 200, pinoWithTime 100] [] (pinoWithTime 1)
      0 0 emptyIndexes (by decide) ⟨by decide, by decide⟩).2.2.2.1⟩

/-- C4 (counterexample): addEntry does not re-sort, so adding an entry
with an earlier timestamp after buildIndexes leaves the timestamp array
out of ascending order, refuting the claim that the invariant holds after
any single addEntry call. -/
theorem addEntry_breaks_timestamp_order :
    (addEntry dateParseNone (pinoWithTime 100) 1
        (buildIndexes dateParseNone [pinoWithTime 200])).timestamps
        = [(0, JSNum.num 200), (1, JSNum.num 100)]
      ∧ ¬ TsSortedNum (addEntry dateParseNone (pinoWithTime 100) 1
          (buildIndexes dateParseNone [pinoWithTime 200])).timestamps := by
  constructor
  · decide
  · decide

/-- C7 (amended): for winston, loki, promtail and docker entries whose
string timestamp field does not date-parse, timestamp extraction returns
the number NaN, not null (Date.parse returns NaN and the code stores it
unguarded), and the NaN value reaches the evaluator: the full-scan
comparison path treats it as a non-null field value. -/
theorem timestamp_extraction_nan (dp : DateParse) (w : WinstonEntry) (l : LokiEntry)
    (pm : PromtailEntry) (d : DockerEntry) (hw : dp w.timestamp = none) (hl : dp l.ts = none)
    (hpm : dp pm.ts = none) (hd : dp d.time = none) :
    extractTimestamp dp (Entry.winston w) = some JSNum.nan
      ∧ extractTimestamp dp (Entry.loki l) = some JSNum.nan
      ∧ extractTimestamp dp (Entry.promtail pm) = some JSNum.nan
      ∧ extractTimestamp dp (Entry.docker d) = some JSNum.nan
      ∧ extractFieldValue dp (Entry.winston w) (str "timestamp") = some JValue.vnan := by
  have hwx : extractTimestamp dp (Entry.winston w) = some JSNum.nan := by
    simp only [extractTimestamp, parseToJSNum, hw]
  refine ⟨hwx, ?_, ?_, ?_, ?_⟩
  · simp only [extractTimestamp, parseToJSNum, hl]
  · simp only [extractTimestamp, parseToJSNum, hpm]
  · simp only [extractTimestamp, parseToJSNum, hd]
  · unfold extractFieldValue
    rw [if_neg (by decide), if_neg (by decide), if_neg (by decide), if_neg (by decide),
      if_pos rfl, hwx]
    rfl

/-- Witness for C7 on a concrete winston entry and the all-unparseable
date-parse oracle. -/
theorem timestamp_extraction_nan_witness :
    dateParseNone (str "not-a-date") = none
      ∧ extractTimestamp dateParseNone
          (Entry.winston ⟨str "not-a-date", str "info", str "m", none, []⟩) = some JSNum.nan :=
  ⟨rfl,
    (timestamp_extraction_nan dateParseNone ⟨str "not-a-date", str "info", str "m", none, []⟩
      ⟨str "x", [], str "line", []⟩ ⟨str "x", str "info", str "m", []⟩
      ⟨str "lg", str "stdout", str "x", []⟩ rfl rfl rfl rfl).1⟩

/-- C7 (counterexample): on a winston entry with an unparseable timestamp
the extraction returns NaN (a non-null value), and the NaN propagates to
the evaluator: the full-scan comparison timestamp = NaN matches the entry
because String(NaN) equals the literal. -/
theorem timestamp_extraction_not_null_on_bad_input :
    extractTimestamp dateParseNone winstonBadTs = some JSNum.nan
      ∧ extractTimestamp dateParseNone winstonBadTs ≠ none
      ∧ evaluateNode dateParseNone regexNone
          (ASTNode.comparison (str "timestamp") CompOp.eq
            { value := JValue.vstr (str "NaN"), valueType := str "string" })
          { entries := [winstonBadTs], indexer := none } = [0] := by
  refine ⟨by decide, by decide, by decide⟩

/-- C3 (amended): inside any search text, a legacy query token matches
whenever some delimiter-separated word of length at least 3 is within one
character of length of the token and agrees with it under index-by-index
comparison up to one disagreement; this positional test accepts
substitution typos (databate matches the token database) and one-position
length differences (the truncation databas matches database), but rejects
insertion and deletion typos even at edit distance 1: the query database
error matches the search texts databate error and databas error with a
nonzero relevance score, yet does not match a search text containing the
deletion typo databse such as databse failure. -/
theorem fuzzy_match_is_positional (s t w : Str)
    (hw : w ∈ splitP isDelimChar (toLowerStr s)) (hlen3 : 3 ≤ w.length)
    (hl1 : w.length ≤ t.length + 1) (hl2 : t.length ≤ w.length + 1)
    (hmis : mismatchCount w t ≤ 1) :
    matchesQuery s [t] [] = true
      ∧ tokenizeQuery (str "database error") = ([str "database", str "error"], [])
      ∧ matchesQuery (str "databate error") [str "database", str "error"] [] = true
      ∧ matchesQuery (str "databas error") [str "database", str "error"] [] = true
      ∧ 0 < calculateRelevance (str "databate error") [str "database", str "error"] []
      ∧ matchesQuery (str "databse failure") [str "database", str "error"] [] = false := by
  refine ⟨?_, by decide, by decide, by decide, by decide, by decide⟩
  unfold matchesQuery
  have hfz : fuzzyMatch w t 1 = true := by
    unfold fuzzyMatch
    rw [if_neg (by omega)]
    simpa using hmis
  simp only [List.all_nil, List.all_cons, Bool.and_true, Bool.true_and, true_and,
    Bool.or_eq_true, List.any_eq_true]
  right
  exact ⟨w, hw, by simp [hlen3, hfz]⟩

/-- Witness for C3 on the truncation typo databas for the token database
embedded in a larger search text. -/
theorem fuzzy_match_is_positional_witness :
    str "databas" ∈ splitP isDelimChar (toLowerStr (str "databas failure"))
      ∧ mismatchCount (str "databas") (str "database") ≤ 1
      ∧ matchesQuery (str "databas failure") [str "database"] [] = true :=
  ⟨by decide, by decide,
    (fuzzy_match_is_positional (str "databas failure") (str "database") (str "databas")
      (by decide) (by decide) (by decide) (by decide) (by decide)).1⟩

/-- C3 (counterexample): databse is at Levenshtein edit distance 1 from
database and is a delimiter-separated word of length at least 3, yet the
legacy matcher rejects the query database error against both the bare
typo and a search text containing it, because its positional fuzzyMatch
counts two disagreements; the matched entry therefore gets no relevance
score at all. -/
theorem edit_distance_one_typo_not_matched :
    specEditDistance (str "databse") (str "database") = 1
      ∧ (3 ≤ (str "databse").length)
      ∧ tokenizeQuery (str "database error") = ([str "database", str "error"], [])
      ∧ matchesQuery (str "databse") [str "database"] [] = false
      ∧ matchesQuery (str "databse failure") [str "database", str "error"] [] = false := by
  refine ⟨by decide, by decide, by decide, by decide, by decide⟩

theorem tsAt_of_lt (arr : List (Nat × JSNum)) (i : Nat) (h : i < arr.length) :
    tsAt arr i = arr[i].2 := by
  unfold tsAt
  rw [List.drop_eq_getElem_cons h]

theorem tsAt_of_ge (arr : List (Nat × JSNum)) (i : Nat) (h : arr.length ≤ i) :
    tsAt arr i = JSNum.nan := by
  unfold tsAt
  rw [List.drop_eq_nil_of_le h]

/-- Loop invariant of the binary search: starting from a window outside
which the answer is already known, the loop returns the first position
whose timestamp is not below the range start (positions left of the
result are all below the start, positions right of it are all not). -/
theorem bsLoop_spec (arr : List (Nat × JSNum)) (startMs : Option Int)
    (hmono : ∀ i j : Nat, i ≤ j → tsLtStart (tsAt arr j) startMs = true →
      tsLtStart (tsAt arr i) startMs = true)
    (left : Nat) (right : Int)
    (hleft : ∀ i : Nat, i < left → tsLtStart (tsAt arr i) startMs = true)
    (hright : ∀ j : Nat, right < (j : Int) → tsLtStart (tsAt arr j) startMs = false) :
    (∀ i : Nat, i < bsLoop arr startMs left right → tsLtStart (tsAt arr i) startMs = true)
      ∧ (∀ j : Nat, bsLoop arr startMs left right ≤ j →
          tsLtStart (tsAt arr j) startMs = false) := by
  rw [bsLoop]
  split
  next h =>
    split
    next hmid =>
      apply bsLoop_spec arr startMs hmono ((left + right.toNat) / 2 + 1) right
      · intro i hi
        by_cases hil : i < left
        · exact hleft i hil
        · exact hmono i ((left + right.toNat) / 2) (by omega) hmid
      · exact hright
    next hmid =>
      apply bsLoop_spec arr startMs hmono left ((((left + right.toNat) / 2 : Nat) : Int) - 1)
      · exact hleft
      · intro j hj
        by_cases hjr : right < (j : Int)
        · exact hright j hjr
        · cases hPj : tsLtStart (tsAt arr j) startMs
          · rfl
          · exact absurd (hmono ((left + right.toNat) / 2) j (by omega) hPj)
              (by simpa using hmid)
  next h =>
    exact ⟨hleft, fun j hj => hright j (by omega)⟩
termination_by (right + 1 - (left : Int)).toNat
decreasing_by
  all_goals omega

theorem tsLeEnd_downward (endMs : Option Int) (a b : Nat × JSNum) (hab : tsLeSort a b)
    (hb : tsLeEnd b.2 endMs = true) : tsLeEnd a.2 endMs = true := by
  unfold tsLeSort tsLeB at hab
  unfold tsLeEnd at *
  cases ha2 : a.2 <;> cases hb2 : b.2 <;> cases endMs <;> simp_all
  omega

theorem filter_eq_takeWhile_of_pairwise {α : Type} {q : α → Bool} {r : α → α → Prop}
    (hdc : ∀ a b, r a b → q b = true → q a = true) :
    ∀ l : List α, List.Pairwise r l → l.filter q = l.takeWhile q := by
  intro l
  induction l with
  | nil => intro _; rfl
  | cons a t ih =>
    intro hp
    rcases List.pairwise_cons.mp hp with ⟨ha, ht⟩
    cases hqa : q a
    · rw [List.filter_cons, List.takeWhile_cons, hqa]
      simp only [Bool.false_eq_true, if_false, cond_false]
      rw [List.filter_eq_nil_iff]
      intro x hx
      intro hqx
      have := hdc a x (ha x hx) hqx
      rw [hqa] at this
      cases this
    · rw [List.filter_cons, List.takeWhile_cons, hqa]
      simp only [if_true, cond_true]
      rw [ih ht]

theorem decide_lt_eq_not_decide_le (a b : Int) : decide (a < b) = !decide (b ≤ a) := by
  by_cases h : b ≤ a
  · simp [h, not_lt.mpr h]
  · simp [h, lt_of_not_ge h]

theorem rangeOk_of_num (x : Int) (startMs endMs : Option Int) :
    (!tsLtStart (JSNum.num x) startMs && tsLeEnd (JSNum.num x) endMs)
      = (startOkB x startMs && endOkB x endMs) := by
  cases startMs <;> cases endMs <;>
    simp [tsLtStart, tsLeEnd, startOkB, endOkB, decide_lt_eq_not_decide_le]

/-- C5: on a timestamp array sorted ascending (the stated precondition),
queryTimestampRange returns exactly the entry indices whose timestamp t
satisfies start less-or-equal t less-or-equal end, with a null start
behaving as negative infinity and a null end as positive infinity, listed
in ascending timestamp order (the result is the index projection of the
in-range sublist of the sorted array). -/
theorem queryTimestampRange_filters (ts : List (Nat × Int)) (startMs endMs : Option Int)
    (hs : List.Pairwise (fun a b : Nat × Int => a.2 ≤ b.2) ts) :
    queryTimestampRange (tsOfInts ts) startMs endMs
      = (ts.filter (fun p => startOkB p.2 startMs && endOkB p.2 endMs)).map Prod.fst := by
  unfold queryTimestampRange
  by_cases hemp : (tsOfInts ts).isEmpty = true
  · rw [if_pos hemp]
    have hnil : ts = [] := by
      cases ts with
      | nil => rfl
      | cons p0 ts0 => simp [tsOfInts] at hemp
    subst hnil
    rfl
  · rw [if_neg hemp]
    show ((List.drop (bsLoop (tsOfInts ts) startMs 0 (((tsOfInts ts).length : Int) - 1))
        (tsOfInts ts)).takeWhile (fun p => tsLeEnd p.2 endMs)).map (·.1) = _
    set arr := tsOfInts ts with harr
    set L := bsLoop arr startMs 0 ((arr.length : Int) - 1) with hLdef
    have hlen_eq : arr.length = ts.length := by
      rw [harr]
      unfold tsOfInts
      exact List.length_map ts _
    have hmem_num : ∀ k, (hk : k < arr.length) → arr[k] = (ts[k].1, JSNum.num ts[k].2) := by
      intro k hk
      show (ts.map (fun p => (p.1, JSNum.num p.2)))[k] = _
      rw [List.getElem_map]
    have hpair : List.Pairwise tsLeSort arr := by
      rw [harr]
      unfold tsOfInts
      rw [List.pairwise_map]
      refine hs.imp ?_
      intro a b hab
      simp only [tsLeSort, tsLeB]
      exact decide_eq_true hab
    have hmono : ∀ i j : Nat, i ≤ j → tsLtStart (tsAt arr j) startMs = true →
        tsLtStart (tsAt arr i) startMs = true := by
      intro i j hij hj
      have hjlen : j < arr.length := by
        by_contra hc
        rw [tsAt_of_ge arr j (by omega)] at hj
        simp [tsLtStart] at hj
      have hilen : i < arr.length := lt_of_le_of_lt hij hjlen
      rw [tsAt_of_lt arr j hjlen] at hj
      rw [tsAt_of_lt arr i hilen]
      rcases eq_or_lt_of_le hij with rfl | hlt
      · exact hj
      · have hpa := List.pairwise_iff_getElem.mp hpair i j hilen hjlen hlt
        rw [hmem_num i hilen] at hpa ⊢
        rw [hmem_num j hjlen] at hpa hj
        cases startMs with
        | none => simp [tsLtStart] at hj
        | some s =>
          simp only [tsLtStart, decide_eq_true_eq] at hj ⊢
          simp only [tsLeSort, tsLeB, decide_eq_true_eq] at hpa
          omega
    have hinit_right : ∀ j : Nat, ((arr.length : Int) - 1) < (j : Int) →
        tsLtStart (tsAt arr j) startMs = false := by
      intro j hj
      rw [tsAt_of_ge arr j (by omega)]
      cases startMs <;> rfl
    obtain ⟨hA, hB⟩ := bsLoop_spec arr startMs hmono 0 ((arr.length : Int) - 1)
      (fun i hi => absurd hi (by omega)) hinit_right
    rw [← hLdef] at hA hB
    have hfilter_arr : arr.filter (fun p => !tsLtStart p.2 startMs && tsLeEnd p.2 endMs)
        = (ts.filter (fun p => startOkB p.2 startMs && endOkB p.2 endMs)).map
            (fun p => (p.1, JSNum.num p.2)) := by
      rw [harr]
      unfold tsOfInts
      rw [List.filter_map]
      congr 1
      apply List.filter_congr
      intro x _
      simp only [Function.comp_apply]
      exact rangeOk_of_num x.2 startMs endMs
    have hgoal2 : (arr.filter (fun p => !tsLtStart p.2 startMs && tsLeEnd p.2 endMs)).map
          Prod.fst
        = (ts.filter (fun p => startOkB p.2 startMs && endOkB p.2 endMs)).map Prod.fst := by
      rw [hfilter_arr, List.map_map]
      apply List.map_congr_left
      intro x _
      rfl
    have htake : (arr.take L).filter (fun p => !tsLtStart p.2 startMs && tsLeEnd p.2 endMs)
        = [] := by
      rw [List.filter_eq_nil_iff]
      intro x hx
      rcases List.mem_iff_getElem.mp hx with ⟨k, hk, hval⟩
      have hkL : k < L := by
        rw [List.length_take] at hk
        omega
      have hklen : k < arr.length := by
        rw [List.length_take] at hk
        omega
      have hx_eq : x = arr[k] := by
        rw [← hval, List.getElem_take]
      have hP := hA k hkL
      rw [tsAt_of_lt arr k hklen] at hP
      rw [hx_eq]
      simp [hP]
    have hdrop_congr :
        (arr.drop L).filter (fun p => !tsLtStart p.2 startMs && tsLeEnd p.2 endMs)
          = (arr.drop L).filter (fun p => tsLeEnd p.2 endMs) := by
      apply List.filter_congr
      intro x hx
      rcases List.mem_iff_getElem.mp hx with ⟨k, hk, hval⟩
      have hklen : L + k < arr.length := by
        rw [List.length_drop] at hk
        omega
      have hx_eq : x = arr[L + k] := by
        rw [← hval, List.getElem_drop]
      have hP := hB (L + k) (by omega)
      rw [tsAt_of_lt arr (L + k) hklen] at hP
      rw [hx_eq]
      simp [hP]
    have hpair_drop : List.Pairwise tsLeSort (arr.drop L) :=
      List.Pairwise.sublist (List.drop_sublist L arr) hpair
    have htw : (arr.drop L).filter (fun p => tsLeEnd p.2 endMs)
        = (arr.drop L).takeWhile (fun p => tsLeEnd p.2 endMs) :=
      filter_eq_takeWhile_of_pairwise (tsLeEnd_downward endMs) _ hpair_drop
    have hsplit : arr.filter (fun p => !tsLtStart p.2 startMs && tsLeEnd p.2 endMs)
        = (arr.drop L).filter (fun p => !tsLtStart p.2 startMs && tsLeEnd p.2 endMs) := by
      conv_lhs => rw [← List.take_append_drop L arr]
      rw [List.filter_append, htake, List.nil_append]
    rw [← htw, ← hdrop_congr, ← hsplit]
    exact hgoal2

/-- Witness for C5 at the specification scenario: timestamps 100, 200,
300 with range start 150 and a null end select exactly the entries with
timestamps 200 and 300, in order. -/
theorem queryTimestampRange_filters_witness :
    List.Pairwise (fun a b : Nat × Int => a.2 ≤ b.2) [(0, 100), (1, 200), (2, 300)]
      ∧ queryTimestampRange (tsOfInts [(0, 100), (1, 200), (2, 300)]) (some 150) none
          = [1, 2] := by
  refine ⟨by decide, ?_⟩
  rw [queryTimestampRange_filters [(0, 100), (1, 200), (2, 300)] (some 150) none (by decide)]
  decide
